import Mathlib

/-!
Verification development for the `pin-deps` yarn plugin
(`src/packages/plugin-pin-deps/sources/index.ts`).

The plugin rewrites semver-range dependency references in workspace
manifests to the exact version currently resolved for them.  The
definitions below are a shallow embedding of the algorithmic core of the
plugin: the resolution index (`createLocatorsByIdentMap`), the candidate
selector (`processDependency`), the pin planner (`findPinnable`) and the
plan applier (`applyAll` / `runPipeline`).

Modelling conventions:
* `IdentHash`, `LocatorHash`, `DescriptorHash` are opaque hashes; we use
  `Nat`.
* JS `Map`s are association lists whose `set` replaces in place
  (`setAssoc`), JS `Set`s are duplicate-free lists in insertion order
  (`setAdd`).
* Version ranges are an inductive AST (`Rng`) covering the shapes the
  plugin distinguishes; the functions of the npm `semver` library used by
  the source (`validRange`, `satisfies`, `gt`) are modelled on this AST
  with their documented semantics.  By convention a `Rng.tag` or
  `Rng.proto` carries a string that is not valid semver range syntax.
* Code that can throw a `TypeError` at runtime (property access on
  `undefined`, the explicit `throw` in the candidate mapper) is modelled
  with `Except JsErr`.
* `Array.prototype.sort` is called by the source with a comparator that
  is not a consistent comparator (`explicitlyIncluded ? -1 : ...`), for
  which ECMAScript leaves the result implementation-defined.  We model
  the behavior of V8 (the engine Node.js and hence yarn run on): a
  comparator that always returns `-1` makes V8's TimSort classify the
  whole array as one strictly descending run, which it reverses; the
  version comparator `semverGt(a, b) ? -1 : 1` behaves as a stable
  insertion sort descending by version.
-/

namespace PinDeps

/-- A semantic version `major.minor.patch` (prerelease/build tags are not
needed by any claim and are omitted). -/
structure Version where
  major : Nat
  minor : Nat
  patch : Nat
deriving DecidableEq, Repr

def Version.render (v : Version) : String :=
  toString v.major ++ "." ++ toString v.minor ++ "." ++ toString v.patch

/-- `semver.gt a b`: strict lexicographic order on versions.  Models the
npm `semver` library's `gt`. -/
def vGt (a b : Version) : Bool :=
  (b.major < a.major) ||
    (b.major == a.major &&
      ((b.minor < a.minor) || (b.minor == a.minor && b.patch < a.patch)))

/-- The range shapes relevant to the plugin.  `tag` (a dist-tag such as
`canary`) and `proto` (a protocol reference such as `workspace:*`) carry
their literal text, which by convention is not valid semver range syntax.
`nullref` stands for the JavaScript `null` range that the plan applier
can produce when a resolved package has a `null` version. -/
inductive Rng where
  | exact (v : Version)
  | caret (v : Version)
  | tilde (v : Version)
  | star
  | tag (s : String)
  | proto (s : String)
  | nullref
deriving DecidableEq, Repr

/-- The literal text of a range, as it appears in a manifest. -/
def Rng.render : Rng → String
  | .exact v => v.render
  | .caret v => "^" ++ v.render
  | .tilde v => "~" ++ v.render
  | .star => "*"
  | .tag s => s
  | .proto s => s
  | .nullref => "null"

/-- `semverUtils.validRange` (yarn core wraps `semver`'s range parser):
true iff the text parses as a semver range.  Exact versions, carets,
tildes and `*` are valid ranges; dist-tags, protocol references and
`null` are not. -/
def validRange : Rng → Bool
  | .exact _ => true
  | .caret _ => true
  | .tilde _ => true
  | .star => true
  | .tag _ => false
  | .proto _ => false
  | .nullref => false

/-- `^w` satisfaction: compatible-with range.  For `w.major > 0`: same
major and not below `w`; for `0.minor.patch` with `minor > 0`: same
major/minor and patch at least `w.patch`; for `0.0.patch`: exactly `w`. -/
def caretSat (v w : Version) : Bool :=
  if 0 < w.major then v.major == w.major && !vGt w v
  else if 0 < w.minor then v.major == 0 && v.minor == w.minor && w.patch ≤ v.patch
  else v == w

/-- `semver.satisfies v r`: does version `v` satisfy range `r`?  Models
the npm `semver` library's `satisfies` on the range AST. -/
def satisfies (v : Version) : Rng → Bool
  | .exact w => v == w
  | .caret w => caretSat v w
  | .tilde w => v.major == w.major && v.minor == w.minor && w.patch ≤ v.patch
  | .star => true
  | .tag _ => false
  | .proto _ => false
  | .nullref => false

abbrev IdentHash := Nat
abbrev LocatorHash := Nat
abbrev DescriptorHash := Nat

/-- A yarn `Descriptor`: a dependency reference `scope?/name:range`
together with the hash of its logical identity (`scope+name`). -/
structure Descriptor where
  scope : Option String
  name : String
  range : Rng
  identHash : IdentHash
deriving DecidableEq, Repr

/-- A resolved yarn `Package`.  `version` is `none` when the package
record carries a `null` version.  `virtualOf = some l` models a virtual
locator (peer-dependency instantiation) whose
`structUtils.devirtualizeLocator` resolves to the locator hash `l`;
`virtualOf = none` models a non-virtual locator. -/
structure Package where
  scope : Option String
  name : String
  version : Option Version
  locatorHash : LocatorHash
  virtualOf : Option LocatorHash
deriving DecidableEq, Repr

/-- The slice of the resolved yarn `Project` the plugin reads:
`storedResolutions` (descriptor hash → locator hash), `storedDescriptors`
and `storedPackages`. -/
structure Project where
  storedResolutions : List (DescriptorHash × LocatorHash)
  storedDescriptors : List (DescriptorHash × Descriptor)
  storedPackages : List (LocatorHash × Package)
deriving DecidableEq, Repr

/-- `Map.get`: first entry with the given key. -/
def lookup {κ : Type} [BEq κ] {α : Type} (l : List (κ × α)) (k : κ) : Option α :=
  match l with
  | [] => none
  | (k', v) :: rest => if k' == k then some v else lookup rest k

/-- `Map.set`: replace the entry in place if the key is present,
otherwise append (JS `Map` insertion-order semantics). -/
def setAssoc {κ : Type} [BEq κ] {α : Type} (l : List (κ × α)) (k : κ) (v : α) :
    List (κ × α) :=
  match l with
  | [] => [(k, v)]
  | (k', v') :: rest =>
    if k' == k then (k, v) :: rest else (k', v') :: setAssoc rest k v

/-- `Set.add`: append if not already present (JS `Set` insertion-order
semantics). -/
def setAdd (s : List LocatorHash) (v : LocatorHash) : List LocatorHash :=
  if s.contains v then s else s ++ [v]

/-- `pRef`: render a dependency reference as
`@scope/name:range` / `name:range` (the `highlight` option of the source
only colors terminal output and is the identity on the text). -/
def pRef (scope : Option String) (name : String) (range : Rng) : String :=
  (match scope with
   | some s => "@" ++ s ++ "/"
   | none => "") ++ name ++ ":" ++ range.render

/-- `PinDepsCommand.referencesPackage`: a textual filter matches a
dependency iff it equals the rendered reference exactly, or is the
range-only form `:range` / `*:range`. -/
def referencesPackage (refPkg : String) (scope : Option String) (name : String)
    (range : Rng) : Bool :=
  let candidatePkg := pRef scope name range
  refPkg == candidatePkg ||
    (refPkg == ":" ++ range.render || refPkg == "*:" ++ range.render)

/-- The CLI options of the `pin-deps` command.  `Option.Array` options
are `none` when the flag is absent. -/
structure Config where
  dryRun : Bool
  onlyDevDependencies : Bool
  ignoreDevDependencies : Bool
  verbose : Bool
  onlyPackages : Option (List String)
  alsoIncludePackages : Option (List String)
  onlyWorkspaces : Option (List String)
deriving DecidableEq, Repr

/-- `isDependencyExplicitlyIncluded`: does any `--also` or `--only`
filter reference this dependency?  The `scope` parameter mirrors the
method's signature; note that the call site in `processDependency`
passes only `{ name, range }`, so `scope` is `none` there (the source
marks that call with `@ts-expect-error Possible error?`). -/
def isDependencyExplicitlyIncluded (cfg : Config) (scope : Option String)
    (name : String) (range : Rng) : Bool :=
  let included := (cfg.alsoIncludePackages.getD []).any
    (fun r => referencesPackage r scope name range)
  let selected := (cfg.onlyPackages.getD []).any
    (fun r => referencesPackage r scope name range)
  included || selected

/-- Modelled from the spec (for comparison with the implementation):
"the dependency's rendered reference" — including its scope — "matches
any configured also-include or only filter via the Descriptor Matcher". -/
def specExplicitlyIncluded (cfg : Config) (scope : Option String)
    (name : String) (range : Rng) : Bool :=
  (cfg.alsoIncludePackages.getD [] ++ cfg.onlyPackages.getD []).any
    (fun r => referencesPackage r scope name range)

/-- `PinDepsCommand.needsPin`: false iff `semverUtils.validRange`
rejects the range. -/
def needsPin (range : Rng) : Bool :=
  if !validRange range then false else true

/-- Modelled from the spec (for comparison with the implementation):
"`needsPin(range)`: true iff `range` parses as a valid semver range
expression (not an exact version, not a protocol/tag reference)". -/
def specNeedsPin : Rng → Bool
  | .caret _ => true
  | .tilde _ => true
  | .star => true
  | .exact _ => false
  | .tag _ => false
  | .proto _ => false
  | .nullref => false

/-- Runtime failures of the plugin: the explicit `TypeError` thrown for a
locator with no package record, and the `TypeError`s raised by property
access on `undefined`. -/
inductive JsErr where
  | descriptorMissing (dh : DescriptorHash)
  | packageMissing (lh : LocatorHash)
  | candidateUndefined
  | pinToUndefined
  | curValueUndefined
  | planMissing (cwd : String)
deriving DecidableEq, Repr

/-- The warnings the plugin reports while planning and applying pins. -/
inductive Warn where
  | missingLocator (ref : String) (cwd : String)
  | possibleDuplicate (ref : String) (numCandidates : Nat) (numDupes : Nat) (cwd : String)
  | depDevConflict (name : String) (manifestPath : String)
deriving DecidableEq, Repr

/-- `createLocatorsByIdentMap`: fold the stored resolutions into a map
from logical identity to the set of resolved locator hashes.  The `!` on
the descriptor lookup is a TypeScript assertion only; at runtime a
missing descriptor makes `undefined.identHash` throw. -/
def createLocatorsByIdentMap (proj : Project) :
    Except JsErr (List (IdentHash × List LocatorHash)) :=
  go proj.storedResolutions []
where
  go : List (DescriptorHash × LocatorHash) → List (IdentHash × List LocatorHash) →
      Except JsErr (List (IdentHash × List LocatorHash))
  | [], m => .ok m
  | (dh, lh) :: rest, m =>
    match lookup proj.storedDescriptors dh with
    | none => .error (.descriptorMissing dh)
    | some d =>
      match lookup m d.identHash with
      | none => go rest (setAssoc m d.identHash [lh])
      | some s => go rest (setAssoc m d.identHash (setAdd s lh))

/-- Lines 439–444: if the locator is virtual, substitute the package
record of its devirtualized locator (which may be `undefined`);
otherwise keep the package itself. -/
def devirtCandidate (proj : Project) (pkg : Package) : Option Package :=
  match pkg.virtualOf with
  | some src => lookup proj.storedPackages src
  | none => some pkg

/-- The candidate mapper of `processDependency` (lines 431–445): look up
each locator hash, throwing if the package record is missing, and
resolve virtual locators through one level of indirection (the
devirtualized lookup may itself be `undefined`, hence `Option`). -/
def candidateList (proj : Project) : List LocatorHash → Except JsErr (List (Option Package))
  | [] => .ok []
  | lh :: rest =>
    match lookup proj.storedPackages lh with
    | none => .error (.packageMissing lh)
    | some pkg =>
      match candidateList proj rest with
      | .error e => .error e
      | .ok cs => .ok (devirtCandidate proj pkg :: cs)

/-- The `.filter` step of `processDependency` (lines 446–456): drop
`undefined` entries and `null` versions; keep everything when the entry
is explicitly included, otherwise keep versions satisfying the declared
range.  (The regex `range.match(/^(.*)$/)` always matches for the range
texts representable here, so `semverMatch[1]` is the range itself.) -/
def keptCandidates (explicitlyIncluded : Bool) (range : Rng)
    (raw : List (Option Package)) : List Package :=
  raw.filterMap (fun c =>
    match c with
    | none => none
    | some p =>
      match p.version with
      | none => none
      | some v =>
        if explicitlyIncluded then some p
        else if satisfies v range then some p else none)

def vOf (p : Package) : Version := p.version.getD ⟨0, 0, 0⟩

/-- Insert into a list sorted descending by version, after all entries
not strictly below the pivot (what V8's binary insertion does for the
comparator `semverGt(a, b) ? -1 : 1`). -/
def insertDesc (x : Package) : List Package → List Package
  | [] => [x]
  | y :: ys => if vGt (vOf x) (vOf y) then x :: y :: ys else y :: insertDesc x ys

/-- Stable sort descending by version. -/
def sortDescByVersion (l : List Package) : List Package :=
  l.foldl (fun acc x => insertDesc x acc) []

/-- The `.sort` step of `processDependency` (lines 457–463).  When the
entry is explicitly included the comparator constantly returns `-1`,
which is not a consistent comparator; V8's TimSort then treats the whole
array as one strictly descending run and reverses it.  Otherwise the
comparator is `semverGt(a, b) ? -1 : 1`, a stable descending sort by
version. -/
def candidateSort (explicitlyIncluded : Bool) (l : List Package) : List Package :=
  if explicitlyIncluded then l.reverse else sortDescByVersion l

/-- Count the pairs `i < j` of candidates whose locators differ
(`!structUtils.areLocatorsEqual`; locator hashes are equal iff the
locators are). -/
def countDupes : List Package → Nat
  | [] => 0
  | p :: rest => (rest.filter (fun q => !(q.locatorHash == p.locatorHash))).length + countDupes rest

/-- JS `pinTo.version === range` / `curValue.range === version`: string
comparison of a version (or `null`) against a range text (or `null`). -/
def rangeEqVersion (r : Rng) (v : Option Version) : Bool :=
  match r, v with
  | .exact w, some u => w == u
  | .tag s, some u => s == u.render
  | .proto s, some u => s == u.render
  | .nullref, none => true
  | _, _ => false

/-- The range the plan applier writes: the exact resolved version, or JS
`null` when the package version is `null`. -/
def rngOfVersion : Option Version → Rng
  | some v => .exact v
  | none => .nullref

/-- What `processDependency` decides for one entry. -/
inductive PDAction where
  | skipped
  | omitted
  | alreadyPinned (pinTo : Package)
  | plan (pinTo : Package)
deriving DecidableEq, Repr

instance {ε α : Type} [DecidableEq ε] [DecidableEq α] : DecidableEq (Except ε α) :=
  fun a b =>
    match a, b with
    | .ok x, .ok y =>
      if h : x = y then .isTrue (by rw [h]) else .isFalse (by intro hc; cases hc; exact h rfl)
    | .error x, .error y =>
      if h : x = y then .isTrue (by rw [h]) else .isFalse (by intro hc; cases hc; exact h rfl)
    | .ok _, .error _ => .isFalse (by intro hc; cases hc)
    | .error _, .ok _ => .isFalse (by intro hc; cases hc)

/-- Result of `processDependency`: the warnings it reported, and either
its decision or the runtime error that aborted it (warnings reported
before a throw are kept, since the stream report has already emitted
them). -/
structure PDOut where
  warnings : List Warn
  action : Except JsErr PDAction
deriving DecidableEq, Repr

/-- Lines 496–513: compare the chosen version against the declared range
text and classify as already-pinned or a new pin. -/
def finishAction (range : Rng) (pinTo : Package) : PDAction :=
  if rangeEqVersion range pinTo.version then .alreadyPinned pinTo else .plan pinTo

/-- Lines 446–486 of `processDependency` (the multiple-candidates arm):
filter, sort, warn about duplicate pairs, then select `candidates[0]`.
An empty filtered list makes `candidates[0]!.locatorHash` throw; a
missing package record for the selected locator leaves `pinTo` equal to
`undefined`, and `pinTo!.version` throws at line 496. -/
def pickAndWarn (explicitlyIncluded : Bool) (range : Rng) (depPkgRef cwd : String)
    (proj : Project) (raw : List (Option Package)) : PDOut :=
  let candidates := candidateSort explicitlyIncluded (keptCandidates explicitlyIncluded range raw)
  let warns : List Warn :=
    if 1 < candidates.length then
      let numDupes := countDupes candidates
      if 0 < numDupes then
        [.possibleDuplicate depPkgRef candidates.length numDupes cwd]
      else []
    else []
  match candidates with
  | [] => { warnings := warns, action := .error .candidateUndefined }
  | c0 :: _ =>
    match lookup proj.storedPackages c0.locatorHash with
    | none => { warnings := warns, action := .error .pinToUndefined }
    | some pinTo => { warnings := warns, action := .ok (finishAction range pinTo) }

/-- Lines 417–420: with `--only` filters configured, omit any reference
not listed (`this.onlyPackages && !this.onlyPackages.includes(...)`). -/
def omittedByOnly (cfg : Config) (depPkgRef : String) : Bool :=
  match cfg.onlyPackages with
  | some refs => !refs.contains depPkgRef
  | none => false

/-- `processDependency` (lines 380–514): the candidate selector for one
dependency entry of one workspace. -/
def processDependency (cfg : Config) (proj : Project)
    (idx : List (IdentHash × List LocatorHash)) (identHash : IdentHash)
    (dependency : Descriptor) (workspaceCwd : String) : PDOut :=
  let depPkgRef := pRef dependency.scope dependency.name dependency.range
  let expl := isDependencyExplicitlyIncluded cfg none dependency.name dependency.range
  if !needsPin dependency.range && !expl then
    { warnings := [], action := .ok .skipped }
  else if omittedByOnly cfg depPkgRef then
    { warnings := [], action := .ok .omitted }
  else
    match lookup idx identHash with
    | some lhs =>
      if 1 < lhs.length then
        match candidateList proj lhs with
        | .error e => { warnings := [], action := .error e }
        | .ok raw => pickAndWarn expl dependency.range depPkgRef workspaceCwd proj raw
      else if lhs.length == 1 then
        match lookup proj.storedPackages (lhs.headD 0) with
        | none => { warnings := [], action := .error .pinToUndefined }
        | some pinTo => { warnings := [], action := .ok (finishAction dependency.range pinTo) }
      else { warnings := [.missingLocator depPkgRef workspaceCwd],
             action := .error .pinToUndefined }
    | none => { warnings := [.missingLocator depPkgRef workspaceCwd],
                action := .error .pinToUndefined }

/-- Per-workspace pin plan: `pinnableInWorkspace` (ident → chosen
package) and the simplified `reportablePinsInWorkspace`
(rendered reference → chosen version) used for the JSON report. -/
structure WsPlan where
  pinnable : List (IdentHash × Package)
  reportable : List (String × Option Version)
deriving DecidableEq, Repr

/-- How one `processDependency` decision updates the workspace plan
(lines 505–513): only a `plan` decision adds entries. -/
def updatePlan (plan : WsPlan) (identHash : IdentHash) (d : Descriptor)
    (a : PDAction) : WsPlan :=
  match a with
  | .plan p =>
    { pinnable := setAssoc plan.pinnable identHash p,
      reportable := setAssoc plan.reportable (pRef d.scope d.name d.range) p.version }
  | _ => plan

/-- Process a list of dependency entries of one workspace in order,
accumulating the plan and the reported warnings; a thrown `TypeError`
aborts the whole run. -/
def processEntries (cfg : Config) (proj : Project)
    (idx : List (IdentHash × List LocatorHash)) (cwd : String) :
    List (IdentHash × Descriptor) → WsPlan → List Warn →
      Except JsErr (WsPlan × List Warn)
  | [], plan, warns => .ok (plan, warns)
  | (identHash, d) :: rest, plan, warns =>
    let out := processDependency cfg proj idx identHash d cwd
    match out.action with
    | .error e => .error e
    | .ok a => processEntries cfg proj idx cwd rest (updatePlan plan identHash d a)
        (warns ++ out.warnings)

/-- A workspace manifest: the `dependencies` and `devDependencies` maps,
keyed by ident hash, plus the declared package name. -/
structure Manifest where
  name : Option String
  dependencies : List (IdentHash × Descriptor)
  devDependencies : List (IdentHash × Descriptor)
deriving DecidableEq, Repr

/-- A workspace: its directory, relative directory, in-memory manifest,
and the manifest's on-disk content (`persistManifest` copies the
in-memory manifest to disk). -/
structure Workspace where
  cwd : String
  relativeCwd : String
  manifest : Manifest
  diskManifest : Manifest
deriving DecidableEq, Repr

/-- `findPinnableDependencies` for one workspace (lines 341–377):
regular dependencies unless `--only-dev`, then devDependencies when
`--only-dev` or not `--ignore-dev`. -/
def processWs (cfg : Config) (proj : Project)
    (idx : List (IdentHash × List LocatorHash)) (ws : Workspace) :
    Except JsErr (WsPlan × List Warn) :=
  let step1 :=
    if !cfg.onlyDevDependencies then
      processEntries cfg proj idx ws.cwd ws.manifest.dependencies ⟨[], []⟩ []
    else .ok (⟨[], []⟩, [])
  match step1 with
  | .error e => .error e
  | .ok (plan, warns) =>
    if cfg.onlyDevDependencies || !cfg.ignoreDevDependencies then
      processEntries cfg proj idx ws.cwd ws.manifest.devDependencies plan warns
    else .ok (plan, warns)

/-- `findPinnableDependencies` over all gathered workspaces: a map from
workspace cwd to its plan, plus the accumulated warnings. -/
def findPinnable (cfg : Config) (proj : Project)
    (idx : List (IdentHash × List LocatorHash)) :
    List Workspace → List (String × WsPlan) → List Warn →
      Except JsErr (List (String × WsPlan) × List Warn)
  | [], plans, warns => .ok (plans, warns)
  | ws :: rest, plans, warns =>
    match processWs cfg proj idx ws with
    | .error e => .error e
    | .ok (plan, wsWarns) =>
      findPinnable cfg proj idx rest (setAssoc plans ws.cwd plan) (warns ++ wsWarns)

/-- `gatherWorkspaces` (lines 162–201): all workspaces, or only those
matching one of the `--workspace` references by cwd, relative cwd, or
manifest name. -/
def gatherWorkspaces (cfg : Config) (wss : List Workspace) : List Workspace :=
  match cfg.onlyWorkspaces with
  | none => wss
  | some [] => wss
  | some refs =>
    wss.filter (fun ws =>
      refs.any (fun r =>
        ([some ws.cwd, some ws.relativeCwd, ws.manifest.name].filterMap id).contains r))

def manifestPathOf (cwd : String) : String := cwd ++ "/package.json"

/-- The applier loop body over one workspace's planned pins
(lines 217–264): find the current descriptor (regular map first), warn
when the ident is in both maps, skip entries whose range already equals
the chosen version, otherwise rewrite the range in place and count the
pin.  `curValue` being `undefined` would make `Object.assign` throw. -/
def applyEntries (mpath : String) :
    List (IdentHash × Package) → Manifest → Nat → List Warn →
      Except JsErr (Manifest × Nat × List Warn)
  | [], m, numPinned, warns => .ok (m, numPinned, warns)
  | (identHash, pkg) :: rest, m, numPinned, warns =>
    let curDependency := lookup m.dependencies identHash
    let curDevDependency := lookup m.devDependencies identHash
    match curDependency, curDevDependency with
    | none, none => .error .curValueUndefined
    | _, _ =>
      let curValue := (curDependency.or curDevDependency).getD
        ⟨none, "", .nullref, identHash⟩
      let warns := warns ++
        (match curDependency, curDevDependency with
         | some _, some _ => [Warn.depDevConflict curValue.name mpath]
         | _, _ => [])
      if rangeEqVersion curValue.range pkg.version then
        applyEntries mpath rest m numPinned warns
      else
        let newDependency : Descriptor := { curValue with range := rngOfVersion pkg.version }
        let m' :=
          if curDependency.isSome then
            { m with dependencies := setAssoc m.dependencies identHash newDependency }
          else
            { m with devDependencies := setAssoc m.devDependencies identHash newDependency }
        applyEntries mpath rest m' (numPinned + 1) warns

/-- `pinDependencies` for one workspace (lines 211–281): apply its plan
to the in-memory manifest, then persist to disk when something was
pinned and the run is not a dry run. -/
def applyWs (cfg : Config) (plans : List (String × WsPlan)) (ws : Workspace) :
    Except JsErr (Workspace × Bool × List Warn) :=
  match lookup plans ws.cwd with
  | none => .error (.planMissing ws.cwd)
  | some plan =>
    match applyEntries (manifestPathOf ws.cwd) plan.pinnable ws.manifest 0 [] with
    | .error e => .error e
    | .ok (m', numPinned, warns) =>
      let needsPersist := 0 < numPinned
      let persist := needsPersist && !cfg.dryRun
      let ws' : Workspace :=
        { ws with
          manifest := m',
          diskManifest := if persist then m' else ws.diskManifest }
      .ok (ws', persist, warns)

/-- `pinDependencies` over all gathered workspaces, collecting the list
of cwds whose manifests were persisted to disk. -/
def applyAll (cfg : Config) (plans : List (String × WsPlan)) :
    List Workspace → Except JsErr (List Workspace × List String × List Warn)
  | [] => .ok ([], [], [])
  | ws :: rest =>
    match applyWs cfg plans ws with
    | .error e => .error e
    | .ok (ws', persisted, warns) =>
      match applyAll cfg plans rest with
      | .error e => .error e
      | .ok (rest', cwds, restWarns) =>
        .ok (ws' :: rest', (if persisted then [ws.cwd] else []) ++ cwds, warns ++ restWarns)

/-- The observable outcome of one full run. -/
structure RunOut where
  workspaces : List Workspace
  plans : List (String × WsPlan)
  warnings : List Warn
  persisted : List String
deriving DecidableEq, Repr

/-- The full pipeline of `execute` (lines 128–134): gather workspaces,
build the resolution index, plan, then apply. -/
def runPipeline (cfg : Config) (proj : Project) (wss : List Workspace) :
    Except JsErr RunOut :=
  let gathered := gatherWorkspaces cfg wss
  match createLocatorsByIdentMap proj with
  | .error e => .error e
  | .ok idx =>
    match findPinnable cfg proj idx gathered [] [] with
    | .error e => .error e
    | .ok (plans, warns) =>
      match applyAll cfg plans gathered with
      | .error e => .error e
      | .ok (wss', persistedCwds, applyWarns) =>
        .ok { workspaces := wss', plans := plans,
              warnings := warns ++ applyWarns, persisted := persistedCwds }

/-- The package a decision pins to (whether newly planned or already
pinned), if any. -/
def chosenPin : PDAction → Option Package
  | .plan p => some p
  | .alreadyPinned p => some p
  | _ => none

/-- The package a decision newly plans, if any. -/
def planOf : PDAction → Option Package
  | .plan p => some p
  | _ => none

def isPlanAction : PDAction → Bool
  | .plan _ => true
  | _ => false

/-- Total number of plan entries across workspaces. -/
def planCount : List (String × WsPlan) → Nat
  | [] => 0
  | pr :: rest => pr.2.pinnable.length + planCount rest

/-- How the plan applier transforms one manifest descriptor that the
plan maps to `p`: left unchanged when its range already equals the
chosen version, otherwise its range becomes the exact chosen version. -/
def postDesc (d : Descriptor) (p : Package) : Descriptor :=
  if rangeEqVersion d.range p.version then d else { d with range := rngOfVersion p.version }

/-- The effect of applying a pin plan `P` to one manifest entry. -/
def substEntry (P : List (IdentHash × Package)) (e : IdentHash × Descriptor) :
    IdentHash × Descriptor :=
  match lookup P e.1 with
  | some p => (e.1, postDesc e.2 p)
  | none => e

/-- A well-formed manifest: each dependency map has duplicate-free ident
keys and no ident appears in both the regular and the dev map. -/
def ManifestSeparated (m : Manifest) : Prop :=
  (m.dependencies.map Prod.fst).Nodup ∧ (m.devDependencies.map Prod.fst).Nodup ∧
    ∀ k ∈ m.dependencies.map Prod.fst, ¬ k ∈ m.devDependencies.map Prod.fst

instance (m : Manifest) : Decidable (ManifestSeparated m) := by
  unfold ManifestSeparated
  infer_instance

/-- Every per-workspace plan in the list is empty. -/
def AllEmptyPlans (plans : List (String × WsPlan)) : Prop :=
  ∀ pr ∈ plans, pr.2.pinnable = []

def runPlans (r : Except JsErr RunOut) : List (String × WsPlan) :=
  match r with
  | .ok o => o.plans
  | .error _ => []

def runWorkspaces (r : Except JsErr RunOut) : List Workspace :=
  match r with
  | .ok o => o.workspaces
  | .error _ => []

def diskManifests (wss : List Workspace) : List Manifest :=
  wss.map (fun ws => ws.diskManifest)

/-- The package a `PDOut` decided to pin to, when it decided anything. -/
def chosenPinOut (o : PDOut) : Option Package :=
  match o.action with
  | .ok a => chosenPin a
  | .error _ => none

/-- The resolution index of a project, or `[]` when its construction
throws. -/
def idxOf (proj : Project) : List (IdentHash × List LocatorHash) :=
  match createLocatorsByIdentMap proj with
  | .ok idx => idx
  | .error _ => []

/-- Internal consistency of the stored package map: every record is
stored under its own locator hash (so looking a candidate's
`locatorHash` back up returns that candidate). -/
def pkgHashWF (proj : Project) : Bool :=
  proj.storedPackages.all (fun e => e.2.locatorHash == e.1)

/-- One-level devirtualization suffices: the devirtualized form of every
stored package record is non-virtual. -/
def oneLevelVirtualWF (proj : Project) : Bool :=
  proj.storedPackages.all (fun e =>
    (devirtCandidate proj e.2).all (fun q => q.virtualOf == none))

/-- A run configuration with no flags at all. -/
def cfgNone : Config where
  dryRun := false
  onlyDevDependencies := false
  ignoreDevDependencies := false
  verbose := false
  onlyPackages := none
  alsoIncludePackages := none
  onlyWorkspaces := none

/- Fixture for C3: `lib:^2.0.0` with two resolved candidates `2.3.0`
(locator 10) and `2.1.0` (locator 11), both satisfying the range. -/

def c3p10 : Package := ⟨none, "lib", some ⟨2, 3, 0⟩, 10, none⟩

def c3p11 : Package := ⟨none, "lib", some ⟨2, 1, 0⟩, 11, none⟩

def c3dep : Descriptor := ⟨none, "lib", .caret ⟨2, 0, 0⟩, 1⟩

def c3proj : Project where
  storedResolutions := [(100, 10), (101, 11)]
  storedDescriptors := [(100, ⟨none, "lib", .caret ⟨2, 0, 0⟩, 1⟩),
                        (101, ⟨none, "lib", .caret ⟨2, 1, 0⟩, 1⟩)]
  storedPackages := [(10, c3p10), (11, c3p11)]

/- Fixture for C1: an explicitly included entry (`--also :canary`) with
two candidates `2.3.0` (locator 40, first in set order) and `2.1.0`
(locator 41). -/

def c1cfg : Config := { cfgNone with alsoIncludePackages := some [":canary"] }

def c1p40 : Package := ⟨none, "next", some ⟨2, 3, 0⟩, 40, none⟩

def c1p41 : Package := ⟨none, "next", some ⟨2, 1, 0⟩, 41, none⟩

def c1dep : Descriptor := ⟨none, "next", .tag "canary", 4⟩

def c1proj : Project where
  storedResolutions := [(400, 40), (401, 41)]
  storedDescriptors := [(400, ⟨none, "next", .tag "canary", 4⟩),
                        (401, ⟨none, "next", .caret ⟨2, 1, 0⟩, 4⟩)]
  storedPackages := [(40, c1p40), (41, c1p41)]

/- Fixture for C2: ident 9 has no resolution at all; ident 1 is a
pinnable dependency processed after it in the same workspace. -/

def c2p10 : Package := ⟨none, "lib", some ⟨2, 3, 0⟩, 10, none⟩

def c2ghost : Descriptor := ⟨none, "ghost", .caret ⟨1, 0, 0⟩, 9⟩

def c2lib : Descriptor := ⟨none, "lib", .caret ⟨2, 0, 0⟩, 1⟩

def c2proj : Project where
  storedResolutions := [(100, 10)]
  storedDescriptors := [(100, ⟨none, "lib", .caret ⟨2, 0, 0⟩, 1⟩)]
  storedPackages := [(10, c2p10)]

def c2ws : Workspace where
  cwd := "w2"
  relativeCwd := "w2"
  manifest := ⟨some "w2", [(9, c2ghost), (1, c2lib)], []⟩
  diskManifest := ⟨some "w2", [(9, c2ghost), (1, c2lib)], []⟩

/- Fixture for C5: three candidates sharing version `1.0.0` under three
distinct locators 21, 22, 23. -/

def c5p21 : Package := ⟨none, "dup", some ⟨1, 0, 0⟩, 21, none⟩

def c5p22 : Package := ⟨none, "dup", some ⟨1, 0, 0⟩, 22, none⟩

def c5p23 : Package := ⟨none, "dup", some ⟨1, 0, 0⟩, 23, none⟩

def c5dep : Descriptor := ⟨none, "dup", .caret ⟨1, 0, 0⟩, 2⟩

def c5proj : Project where
  storedResolutions := [(200, 21), (201, 22), (202, 23)]
  storedDescriptors := [(200, ⟨none, "dup", .caret ⟨1, 0, 0⟩, 2⟩),
                        (201, ⟨none, "dup", .tilde ⟨1, 0, 0⟩, 2⟩),
                        (202, ⟨none, "dup", .star, 2⟩)]
  storedPackages := [(21, c5p21), (22, c5p22), (23, c5p23)]

/- Fixture for C8: a scoped dependency `@acme/lib:canary` and an `--also`
filter naming exactly its fully rendered reference. -/

def c8cfg : Config := { cfgNone with alsoIncludePackages := some ["@acme/lib:canary"] }

def c8dep : Descriptor := ⟨some "acme", "lib", .tag "canary", 3⟩

def c8proj : Project where
  storedResolutions := [(300, 30)]
  storedDescriptors := [(300, ⟨some "acme", "lib", .tag "canary", 3⟩)]
  storedPackages := [(30, ⟨some "acme", "lib", some ⟨3, 0, 0⟩, 30, none⟩)]

/- Fixture for C9: locator 5 is virtual (devirtualizing to locator 6)
and is the resolution of descriptor 100. -/

def c9pv : Package := ⟨none, "vpkg", some ⟨1, 0, 0⟩, 5, some 6⟩

def c9pr : Package := ⟨none, "vpkg", some ⟨1, 0, 0⟩, 6, none⟩

def c9proj : Project where
  storedResolutions := [(100, 5)]
  storedDescriptors := [(100, ⟨none, "vpkg", .caret ⟨1, 0, 0⟩, 7⟩)]
  storedPackages := [(5, c9pv), (6, c9pr)]

/- Fixture for C4: ident 1 appears in both `dependencies` and
`devDependencies` of the same workspace, with a single resolved
candidate `2.3.0`. -/

def c4dep : Descriptor := ⟨none, "lib", .caret ⟨2, 0, 0⟩, 1⟩

def c4p10 : Package := ⟨none, "lib", some ⟨2, 3, 0⟩, 10, none⟩

def c4proj : Project where
  storedResolutions := [(100, 10)]
  storedDescriptors := [(100, ⟨none, "lib", .caret ⟨2, 0, 0⟩, 1⟩)]
  storedPackages := [(10, c4p10)]

def c4ws : Workspace where
  cwd := "w4"
  relativeCwd := "w4"
  manifest := ⟨some "w4", [(1, c4dep)], [(1, c4dep)]⟩
  diskManifest := ⟨some "w4", [(1, c4dep)], [(1, c4dep)]⟩

/- Fixture for C7: a single resolved candidate whose version `9.9.9`
does not satisfy the declared range `^1.0.0`. -/

def c7p : Package := ⟨none, "solo", some ⟨9, 9, 9⟩, 50, none⟩

def c7dep : Descriptor := ⟨none, "solo", .caret ⟨1, 0, 0⟩, 6⟩

def c7proj : Project where
  storedResolutions := [(500, 50)]
  storedDescriptors := [(500, ⟨none, "solo", .caret ⟨1, 0, 0⟩, 6⟩)]
  storedPackages := [(50, c7p)]

/- Fixture for C10 and the idempotence witness: one workspace with one
pinnable dependency, regular map only. -/

def c10ws : Workspace where
  cwd := "w4"
  relativeCwd := "w4"
  manifest := ⟨some "w4", [(1, c4dep)], []⟩
  diskManifest := ⟨some "w4", [(1, c4dep)], []⟩

def c10cfgDry : Config := { cfgNone with dryRun := true }

/-- The outcome of the first (non-dry) pipeline run on the
single-map fixture workspace. -/
def c4out1 : RunOut :=
  (runPipeline cfgNone c4proj [c10ws]).toOption.getD ⟨[], [], [], []⟩

/-- The outcome of the dry pipeline run on the single-map fixture
workspace. -/
def c10out : RunOut :=
  (runPipeline c10cfgDry c4proj [c10ws]).toOption.getD ⟨[], [], [], []⟩

end PinDeps

namespace PinDeps

theorem vGt_iff (a b : Version) :
    vGt a b = true ↔
      (b.major < a.major ∨
        (b.major = a.major ∧
          (b.minor < a.minor ∨ (b.minor = a.minor ∧ b.patch < a.patch)))) := by
  simp [vGt]

theorem vGt_irrefl (a : Version) : vGt a a = false := by
  cases h : vGt a a with
  | false => rfl
  | true =>
    exfalso
    rcases (vGt_iff a a).mp h with h1 | ⟨h1, h2 | ⟨h2, h3⟩⟩ <;> omega

theorem vGt_asymm {a b : Version} (h : vGt a b = true) : vGt b a = false := by
  cases h2 : vGt b a with
  | false => rfl
  | true =>
    exfalso
    have h1 := (vGt_iff a b).mp h
    have h2 := (vGt_iff b a).mp h2
    rcases h1 with h1 | ⟨h1a, h1 | ⟨h1b, h1⟩⟩ <;>
      rcases h2 with h2 | ⟨h2a, h2 | ⟨h2b, h2⟩⟩ <;> omega

theorem vGt_trans {a b c : Version} (h1 : vGt a b = true) (h2 : vGt b c = true) :
    vGt a c = true := by
  rw [vGt_iff] at h1 h2 ⊢
  rcases h1 with h1 | ⟨h1a, h1 | ⟨h1b, h1⟩⟩ <;>
    rcases h2 with h2 | ⟨h2a, h2 | ⟨h2b, h2⟩⟩ <;> omega

theorem mem_insertDesc {q x : Package} {l : List Package} :
    q ∈ insertDesc x l ↔ (q = x ∨ q ∈ l) := by
  induction l with
  | nil => simp [insertDesc]
  | cons y ys ih =>
    rw [insertDesc]
    split
    · simp only [List.mem_cons]
    · simp only [List.mem_cons, ih]
      constructor
      · rintro (h | h) <;> tauto
      · rintro (h | h) <;> tauto

theorem insertDesc_head_max {x : Package} {l : List Package}
    (hl : ∀ h t, l = h :: t → ∀ q ∈ l, vGt (vOf q) (vOf h) = false) :
    ∀ h t, insertDesc x l = h :: t → ∀ q ∈ insertDesc x l, vGt (vOf q) (vOf h) = false := by
  cases l with
  | nil =>
    intro h t heq q hq
    rw [insertDesc] at heq hq
    injection heq with h1 h2
    subst h1
    simp only [List.mem_singleton] at hq
    subst hq
    exact vGt_irrefl _
  | cons y ys =>
    intro h t heq q hq
    by_cases hxy : vGt (vOf x) (vOf y) = true
    · rw [insertDesc, if_pos hxy] at heq hq
      injection heq with h1 h2
      subst h1
      rcases List.mem_cons.mp hq with hqx | hq2
      · subst hqx; exact vGt_irrefl _
      · rcases List.mem_cons.mp hq2 with hqy | hqys
        · subst hqy; exact vGt_asymm hxy
        · cases hqx2 : vGt (vOf q) (vOf x) with
          | false => rfl
          | true =>
            have hqy2 := vGt_trans hqx2 hxy
            have hqy3 := hl y ys rfl q (List.mem_cons_of_mem y hqys)
            rw [hqy2] at hqy3
            cases hqy3
    · have hxy' : vGt (vOf x) (vOf y) = false := by
        cases hv : vGt (vOf x) (vOf y) with
        | false => rfl
        | true => exact absurd hv hxy
      rw [insertDesc, if_neg hxy] at heq hq
      injection heq with h1 h2
      subst h1
      rcases List.mem_cons.mp hq with hqy | hqrest
      · subst hqy; exact vGt_irrefl _
      · rcases mem_insertDesc.mp hqrest with hqx | hqys
        · subst hqx; exact hxy'
        · exact hl y ys rfl q (List.mem_cons_of_mem y hqys)

theorem foldl_insertDesc_mem (q : Package) (l : List Package) : ∀ acc,
    (q ∈ l.foldl (fun a x => insertDesc x a) acc ↔ (q ∈ acc ∨ q ∈ l)) := by
  induction l with
  | nil => intro acc; simp
  | cons x xs ih =>
    intro acc
    rw [List.foldl_cons, ih (insertDesc x acc)]
    simp only [mem_insertDesc, List.mem_cons]
    tauto

theorem foldl_insertDesc_head_max (l : List Package) : ∀ acc,
    (∀ h t, acc = h :: t → ∀ q ∈ acc, vGt (vOf q) (vOf h) = false) →
    ∀ h t, l.foldl (fun a x => insertDesc x a) acc = h :: t →
      ∀ q ∈ l.foldl (fun a x => insertDesc x a) acc, vGt (vOf q) (vOf h) = false := by
  induction l with
  | nil =>
    intro acc hacc
    simpa using hacc
  | cons x xs ih =>
    intro acc hacc
    rw [List.foldl_cons]
    exact ih (insertDesc x acc) (insertDesc_head_max hacc)

theorem mem_sortDescByVersion {q : Package} {l : List Package} :
    q ∈ sortDescByVersion l ↔ q ∈ l := by
  rw [sortDescByVersion, foldl_insertDesc_mem]
  simp

theorem sortDesc_head_max {l : List Package} {h : Package} {t : List Package}
    (heq : sortDescByVersion l = h :: t) :
    ∀ q ∈ l, vGt (vOf q) (vOf h) = false := by
  intro q hq
  have hq2 : q ∈ sortDescByVersion l := mem_sortDescByVersion.mpr hq
  rw [sortDescByVersion] at heq hq2
  exact foldl_insertDesc_head_max l [] (by intro h' t' habs; cases habs) h t heq q hq2

theorem length_insertDesc (x : Package) (l : List Package) :
    (insertDesc x l).length = l.length + 1 := by
  induction l with
  | nil => rfl
  | cons y ys ih =>
    rw [insertDesc]
    split
    · rfl
    · simp only [List.length_cons, ih]

theorem length_sortDescByVersion (l : List Package) :
    (sortDescByVersion l).length = l.length := by
  have haux : ∀ acc, (l.foldl (fun a x => insertDesc x a) acc).length = acc.length + l.length := by
    induction l with
    | nil => intro acc; simp
    | cons x xs ih =>
      intro acc
      rw [List.foldl_cons, ih (insertDesc x acc), length_insertDesc, List.length_cons]
      omega
  rw [sortDescByVersion, haux]
  simp

theorem lookup_mem {κ α : Type} [BEq κ] [LawfulBEq κ] {l : List (κ × α)} {k : κ} {v : α}
    (h : lookup l k = some v) : (k, v) ∈ l := by
  induction l with
  | nil => cases h
  | cons e rest ih =>
    obtain ⟨k', v'⟩ := e
    rw [lookup] at h
    by_cases hk : (k' == k) = true
    · rw [if_pos hk] at h
      injection h with h1
      subst h1
      have hkk : k' = k := eq_of_beq hk
      subst hkk
      exact List.mem_cons_self _ _
    · rw [if_neg hk] at h
      exact List.mem_cons_of_mem _ (ih h)

theorem pkgHashWF_lookup {proj : Project} {lh : LocatorHash} {p : Package}
    (hwf : pkgHashWF proj = true) (h : lookup proj.storedPackages lh = some p) :
    p.locatorHash = lh := by
  have hm := lookup_mem h
  have hall := List.all_eq_true.mp hwf _ hm
  exact eq_of_beq hall

theorem devirt_nonvirtual {proj : Project} {lh : LocatorHash} {p q : Package}
    (hwf : oneLevelVirtualWF proj = true)
    (hp : lookup proj.storedPackages lh = some p)
    (hdv : devirtCandidate proj p = some q) : q.virtualOf = none := by
  have hall : ((devirtCandidate proj p).all (fun r => r.virtualOf == none)) = true :=
    List.all_eq_true.mp hwf _ (lookup_mem hp)
  rw [hdv] at hall
  exact eq_of_beq hall

theorem candidateList_mem {proj : Project} {lhs : List LocatorHash}
    {raw : List (Option Package)} (h : candidateList proj lhs = .ok raw) :
    ∀ c : Package, some c ∈ raw →
      ∃ lh p, lookup proj.storedPackages lh = some p ∧ devirtCandidate proj p = some c := by
  induction lhs generalizing raw with
  | nil =>
    rw [candidateList] at h
    injection h with h1
    subst h1
    intro c hc
    cases hc
  | cons lh rest ih =>
    rw [candidateList] at h
    split at h
    · cases h
    · rename_i pkg hlook
      split at h
      · cases h
      · rename_i cs hrest
        injection h with h1
        subst h1
        intro c hc
        rcases List.mem_cons.mp hc with hhead | htail
        · exact ⟨lh, pkg, hlook, hhead.symm⟩
        · exact ih hrest c htail

theorem candidateList_self {proj : Project} (hwf : pkgHashWF proj = true)
    {lhs : List LocatorHash} {raw : List (Option Package)}
    (h : candidateList proj lhs = .ok raw) :
    ∀ c : Package, some c ∈ raw → lookup proj.storedPackages c.locatorHash = some c := by
  intro c hc
  obtain ⟨lh, p, hp, hdv⟩ := candidateList_mem h c hc
  rw [devirtCandidate] at hdv
  split at hdv
  · have hcl := pkgHashWF_lookup hwf hdv
    rw [hcl]
    exact hdv
  · injection hdv with h1
    subst h1
    have hcl := pkgHashWF_lookup hwf hp
    rw [hcl]
    exact hp

theorem candidateList_nonvirtual {proj : Project} (hwf : oneLevelVirtualWF proj = true)
    {lhs : List LocatorHash} {raw : List (Option Package)}
    (h : candidateList proj lhs = .ok raw) :
    ∀ c : Package, some c ∈ raw → c.virtualOf = none := by
  intro c hc
  obtain ⟨lh, p, hp, hdv⟩ := candidateList_mem h c hc
  exact devirt_nonvirtual hwf hp hdv

theorem keptCandidates_mem {expl : Bool} {range : Rng} {raw : List (Option Package)}
    {q : Package} :
    q ∈ keptCandidates expl range raw ↔
      (some q ∈ raw ∧ ∃ v, q.version = some v ∧
        (expl = true ∨ satisfies v range = true)) := by
  rw [keptCandidates, List.mem_filterMap]
  constructor
  · rintro ⟨c, hc, hf⟩
    split at hf
    · cases hf
    · rename_i p
      split at hf
      · cases hf
      · rename_i v hv
        split at hf
        · rename_i hexp
          injection hf with h1
          subst h1
          exact ⟨hc, v, hv, Or.inl (by simpa using hexp)⟩
        · split at hf
          · rename_i hsat
            injection hf with h1
            subst h1
            exact ⟨hc, v, hv, Or.inr hsat⟩
          · cases hf
  · rintro ⟨hc, v, hv, hor⟩
    refine ⟨some q, hc, ?_⟩
    rcases hor with hexp | hsat
    · subst hexp
      simp [hv]
    · cases hexpv : expl with
      | true => simp [hv]
      | false => simp [hv, hsat]

theorem candidateSort_false (l : List Package) :
    candidateSort false l = sortDescByVersion l := rfl

theorem candidateSort_true (l : List Package) :
    candidateSort true l = l.reverse := rfl

theorem chosenPin_finishAction (range : Rng) (p : Package) :
    chosenPin (finishAction range p) = some p := by
  rw [finishAction]
  split <;> rfl

theorem processDependency_eq_pickAndWarn
    {cfg : Config} {proj : Project} {idx : List (IdentHash × List LocatorHash)}
    {identHash : IdentHash} {d : Descriptor} {cwd : String}
    {lhs : List LocatorHash} {raw : List (Option Package)}
    (hgate : (!needsPin d.range &&
      !isDependencyExplicitlyIncluded cfg none d.name d.range) = false)
    (honly : omittedByOnly cfg (pRef d.scope d.name d.range) = false)
    (hlhs : lookup idx identHash = some lhs)
    (hlen : 1 < lhs.length)
    (hraw : candidateList proj lhs = .ok raw) :
    processDependency cfg proj idx identHash d cwd =
      pickAndWarn (isDependencyExplicitlyIncluded cfg none d.name d.range) d.range
        (pRef d.scope d.name d.range) cwd proj raw := by
  rw [processDependency]
  simp only [hgate, honly, hlhs, hraw, Bool.false_eq_true, if_false, if_pos hlen]

theorem processDependency_single
    {cfg : Config} {proj : Project} {idx : List (IdentHash × List LocatorHash)}
    {identHash : IdentHash} {d : Descriptor} {cwd : String}
    {lh0 : LocatorHash} {p : Package}
    (hgate : (!needsPin d.range &&
      !isDependencyExplicitlyIncluded cfg none d.name d.range) = false)
    (honly : omittedByOnly cfg (pRef d.scope d.name d.range) = false)
    (hlhs : lookup idx identHash = some [lh0])
    (hpkg : lookup proj.storedPackages lh0 = some p) :
    processDependency cfg proj idx identHash d cwd =
      { warnings := [], action := .ok (finishAction d.range p) } := by
  rw [processDependency]
  simp [hgate, honly, hlhs, hpkg]

theorem processDependency_skip
    {cfg : Config} {proj : Project} {idx : List (IdentHash × List LocatorHash)}
    {identHash : IdentHash} {d : Descriptor} {cwd : String}
    (hpin : needsPin d.range = false)
    (hexp : isDependencyExplicitlyIncluded cfg none d.name d.range = false) :
    processDependency cfg proj idx identHash d cwd =
      { warnings := [], action := .ok .skipped } := by
  rw [processDependency]
  simp only [hpin, hexp, Bool.not_false, Bool.and_self, if_pos]

theorem pickAndWarn_eq {expl : Bool} {range : Rng} {ref cwd : String} {proj : Project}
    {raw : List (Option Package)} {c0 : Package} {t : List Package} {pinTo : Package}
    (hsort : candidateSort expl (keptCandidates expl range raw) = c0 :: t)
    (hlook : lookup proj.storedPackages c0.locatorHash = some pinTo) :
    pickAndWarn expl range ref cwd proj raw =
      { warnings :=
          if 1 < (c0 :: t).length then
            if 0 < countDupes (c0 :: t) then
              [.possibleDuplicate ref (c0 :: t).length (countDupes (c0 :: t)) cwd]
            else []
          else [],
        action := .ok (finishAction range pinTo) } := by
  rw [pickAndWarn]
  simp only [hsort, hlook]

theorem lookup_setAssoc_self {κ α : Type} [BEq κ] [LawfulBEq κ]
    (l : List (κ × α)) (k : κ) (v : α) : lookup (setAssoc l k v) k = some v := by
  induction l with
  | nil => simp [setAssoc, lookup]
  | cons e rest ih =>
    obtain ⟨k', v'⟩ := e
    rw [setAssoc]
    by_cases hk : (k' == k) = true
    · rw [if_pos hk, lookup, if_pos (by simp)]
    · rw [if_neg hk, lookup, if_neg hk]
      exact ih

theorem lookup_setAssoc_ne {κ α : Type} [BEq κ] [LawfulBEq κ]
    (l : List (κ × α)) (k k' : κ) (v : α) (h : ¬ k = k') :
    lookup (setAssoc l k v) k' = lookup l k' := by
  induction l with
  | nil =>
    simp only [setAssoc, lookup]
    rw [if_neg (by simpa using h)]
  | cons e rest ih =>
    obtain ⟨k0, v0⟩ := e
    rw [setAssoc]
    by_cases hk : (k0 == k) = true
    · have hk0 : k0 = k := eq_of_beq hk
      subst hk0
      rw [if_pos (by simp), lookup, lookup, if_neg (by simpa using h),
        if_neg (by simpa using h)]
    · rw [if_neg hk, lookup, lookup]
      by_cases hk' : (k0 == k') = true
      · rw [if_pos hk', if_pos hk']
      · rw [if_neg hk', if_neg hk']
        exact ih

theorem lookup_isSome_of_mem_keys {κ α : Type} [BEq κ] [LawfulBEq κ]
    {l : List (κ × α)} {k : κ} (h : k ∈ l.map Prod.fst) : (lookup l k).isSome = true := by
  induction l with
  | nil => cases h
  | cons e rest ih =>
    obtain ⟨k0, v0⟩ := e
    rw [lookup]
    by_cases hk : (k0 == k) = true
    · rw [if_pos hk]
      rfl
    · rw [if_neg hk]
      apply ih
      simp only [List.map_cons, List.mem_cons] at h
      rcases h with h1 | h1
      · exact absurd (beq_iff_eq.mpr h1.symm) hk
      · exact h1

theorem lookup_eq_of_mem_nodup {κ α : Type} [BEq κ] [LawfulBEq κ]
    {l : List (κ × α)} {k : κ} {v : α}
    (hnodup : (l.map Prod.fst).Nodup) (hmem : (k, v) ∈ l) : lookup l k = some v := by
  induction l with
  | nil => cases hmem
  | cons e rest ih =>
    obtain ⟨k0, v0⟩ := e
    rw [lookup]
    rcases List.mem_cons.mp hmem with heq | hmem2
    · injection heq with h1 h2
      subst h1
      subst h2
      rw [if_pos (by simp)]
    · by_cases hk : (k0 == k) = true
      · exfalso
        have hk0 : k0 = k := eq_of_beq hk
        subst hk0
        have : k0 ∈ rest.map Prod.fst := List.mem_map.mpr ⟨(k0, v), hmem2, rfl⟩
        simp only [List.map_cons, List.nodup_cons] at hnodup
        exact hnodup.1 this
      · rw [if_neg hk]
        simp only [List.map_cons, List.nodup_cons] at hnodup
        exact ih hnodup.2 hmem2

theorem keys_setAssoc_of_mem {κ α : Type} [BEq κ] [LawfulBEq κ]
    {l : List (κ × α)} {k : κ} (v : α) (h : k ∈ l.map Prod.fst) :
    (setAssoc l k v).map Prod.fst = l.map Prod.fst := by
  induction l with
  | nil => cases h
  | cons e rest ih =>
    obtain ⟨k0, v0⟩ := e
    rw [setAssoc]
    by_cases hk : (k0 == k) = true
    · have hk0 : k0 = k := eq_of_beq hk
      subst hk0
      rw [if_pos (by simp)]
      simp
    · rw [if_neg hk]
      simp only [List.map_cons]
      have hkr : k ∈ rest.map Prod.fst := by
        simp only [List.map_cons, List.mem_cons] at h
        rcases h with h1 | h1
        · exact absurd (beq_iff_eq.mpr h1.symm) hk
        · exact h1
      rw [ih hkr]

theorem keys_setAssoc_sub {κ α : Type} [BEq κ] [LawfulBEq κ]
    {l : List (κ × α)} {k k' : κ} {v : α}
    (h : k' ∈ (setAssoc l k v).map Prod.fst) : k' ∈ l.map Prod.fst ∨ k' = k := by
  induction l with
  | nil =>
    rw [setAssoc] at h
    simp only [List.map_cons, List.map_nil] at h
    rcases List.mem_cons.mp h with h1 | h1
    · exact Or.inr h1
    · cases h1
  | cons e rest ih =>
    obtain ⟨k0, v0⟩ := e
    rw [setAssoc] at h
    by_cases hk : (k0 == k) = true
    · rw [if_pos hk] at h
      simp only [List.map_cons] at h ⊢
      rcases List.mem_cons.mp h with h1 | h1
      · exact Or.inr h1
      · exact Or.inl (List.mem_cons_of_mem _ h1)
    · rw [if_neg hk] at h
      simp only [List.map_cons] at h ⊢
      rcases List.mem_cons.mp h with h1 | h1
      · exact Or.inl (by rw [h1]; exact List.mem_cons_self _ _)
      · rcases ih h1 with h2 | h2
        · exact Or.inl (List.mem_cons_of_mem _ h2)
        · exact Or.inr h2

theorem nodup_keys_setAssoc {κ α : Type} [BEq κ] [LawfulBEq κ]
    {l : List (κ × α)} {k : κ} {v : α}
    (h : (l.map Prod.fst).Nodup) : ((setAssoc l k v).map Prod.fst).Nodup := by
  induction l with
  | nil => simp [setAssoc]
  | cons e rest ih =>
    obtain ⟨k0, v0⟩ := e
    rw [setAssoc]
    by_cases hk : (k0 == k) = true
    · have hk0 : k0 = k := eq_of_beq hk
      subst hk0
      rw [if_pos (by simp)]
      simpa using h
    · rw [if_neg hk]
      simp only [List.map_cons, List.nodup_cons] at h ⊢
      refine ⟨?_, ih h.2⟩
      intro hmem
      rcases keys_setAssoc_sub hmem with h2 | h2
      · exact h.1 h2
      · exact hk (by rw [h2]; simp)

theorem mem_setAssoc {κ α : Type} [BEq κ] [LawfulBEq κ]
    {l : List (κ × α)} {k : κ} {v : α} {pr : κ × α}
    (h : pr ∈ setAssoc l k v) : pr ∈ l ∨ pr = (k, v) := by
  induction l with
  | nil =>
    rw [setAssoc] at h
    rcases List.mem_cons.mp h with h1 | h1
    · exact Or.inr h1
    · cases h1
  | cons e rest ih =>
    obtain ⟨k0, v0⟩ := e
    rw [setAssoc] at h
    by_cases hk : (k0 == k) = true
    · rw [if_pos hk] at h
      rcases List.mem_cons.mp h with h1 | h1
      · exact Or.inr h1
      · exact Or.inl (List.mem_cons_of_mem _ h1)
    · rw [if_neg hk] at h
      rcases List.mem_cons.mp h with h1 | h1
      · exact Or.inl (h1 ▸ List.mem_cons_self _ _)
      · rcases ih h1 with h2 | h2
        · exact Or.inl (List.mem_cons_of_mem _ h2)
        · exact Or.inr h2

theorem setAssoc_eq_map {κ α : Type} [BEq κ] [LawfulBEq κ]
    {l : List (κ × α)} {k : κ} {v : α}
    (hnodup : (l.map Prod.fst).Nodup) (h : k ∈ l.map Prod.fst) :
    setAssoc l k v = l.map (fun e => if e.1 == k then (k, v) else e) := by
  induction l with
  | nil => cases h
  | cons e rest ih =>
    obtain ⟨k0, v0⟩ := e
    simp only [List.map_cons, List.nodup_cons] at hnodup
    rw [setAssoc, List.map_cons]
    by_cases hk : (k0 == k) = true
    · have hk0 : k0 = k := eq_of_beq hk
      subst hk0
      rw [if_pos hk]
      have hrest : rest.map (fun e => if e.1 == k0 then (k0, v) else e) = rest := by
        have hpt : ∀ e' ∈ rest, (fun e => if e.1 == k0 then (k0, v) else e) e' = id e' := by
          intro e' he'
          simp only [id]
          rw [if_neg]
          intro hbeq
          exact hnodup.1 (List.mem_map.mpr ⟨e', he', eq_of_beq hbeq⟩)
        rw [List.map_congr_left hpt, List.map_id]
      rw [hrest]
      simp only [if_pos hk]
    · rw [if_neg hk]
      have hkr : k ∈ rest.map Prod.fst := by
        rcases List.mem_cons.mp h with h1 | h1
        · have h1' : k = k0 := h1
          exact absurd (beq_iff_eq.mpr h1'.symm) hk
        · exact h1
      rw [ih hnodup.2 hkr]
      simp only [if_neg hk]

theorem pickAndWarn_empty {expl : Bool} {range : Rng} {ref cwd : String} {proj : Project}
    {raw : List (Option Package)}
    (hsort : candidateSort expl (keptCandidates expl range raw) = []) :
    pickAndWarn expl range ref cwd proj raw =
      { warnings := [], action := .error .candidateUndefined } := by
  rw [pickAndWarn]
  simp [hsort]

theorem pickAndWarn_nolookup {expl : Bool} {range : Rng} {ref cwd : String} {proj : Project}
    {raw : List (Option Package)} {c0 : Package} {t : List Package}
    (hsort : candidateSort expl (keptCandidates expl range raw) = c0 :: t)
    (hlook : lookup proj.storedPackages c0.locatorHash = none) :
    (pickAndWarn expl range ref cwd proj raw).action = .error .pinToUndefined := by
  rw [pickAndWarn]
  simp only [hsort, hlook]

theorem processDependency_multi_error
    {cfg : Config} {proj : Project} {idx : List (IdentHash × List LocatorHash)}
    {identHash : IdentHash} {d : Descriptor} {cwd : String}
    {lhs : List LocatorHash} {e : JsErr}
    (hgate : (!needsPin d.range &&
      !isDependencyExplicitlyIncluded cfg none d.name d.range) = false)
    (honly : omittedByOnly cfg (pRef d.scope d.name d.range) = false)
    (hlhs : lookup idx identHash = some lhs)
    (hlen : 1 < lhs.length)
    (hraw : candidateList proj lhs = .error e) :
    processDependency cfg proj idx identHash d cwd =
      { warnings := [], action := .error e } := by
  rw [processDependency]
  simp only [hgate, honly, hlhs, hraw, Bool.false_eq_true, if_false, if_pos hlen]

theorem processDependency_missing_none
    {cfg : Config} {proj : Project} {idx : List (IdentHash × List LocatorHash)}
    {identHash : IdentHash} {d : Descriptor} {cwd : String}
    (hgate : (!needsPin d.range &&
      !isDependencyExplicitlyIncluded cfg none d.name d.range) = false)
    (honly : omittedByOnly cfg (pRef d.scope d.name d.range) = false)
    (hlhs : lookup idx identHash = none) :
    processDependency cfg proj idx identHash d cwd =
      { warnings := [.missingLocator (pRef d.scope d.name d.range) cwd],
        action := .error .pinToUndefined } := by
  rw [processDependency]
  simp only [hgate, honly, hlhs, Bool.false_eq_true, if_false]

theorem processDependency_missing_empty
    {cfg : Config} {proj : Project} {idx : List (IdentHash × List LocatorHash)}
    {identHash : IdentHash} {d : Descriptor} {cwd : String} {lhs : List LocatorHash}
    (hgate : (!needsPin d.range &&
      !isDependencyExplicitlyIncluded cfg none d.name d.range) = false)
    (honly : omittedByOnly cfg (pRef d.scope d.name d.range) = false)
    (hlhs : lookup idx identHash = some lhs)
    (hlen : ¬ 1 < lhs.length)
    (hone : (lhs.length == 1) = false) :
    processDependency cfg proj idx identHash d cwd =
      { warnings := [.missingLocator (pRef d.scope d.name d.range) cwd],
        action := .error .pinToUndefined } := by
  rw [processDependency]
  simp only [hgate, honly, hlhs, hone, Bool.false_eq_true, if_false, if_neg hlen]

theorem processDependency_single_nolookup
    {cfg : Config} {proj : Project} {idx : List (IdentHash × List LocatorHash)}
    {identHash : IdentHash} {d : Descriptor} {cwd : String} {lh0 : LocatorHash}
    (hgate : (!needsPin d.range &&
      !isDependencyExplicitlyIncluded cfg none d.name d.range) = false)
    (honly : omittedByOnly cfg (pRef d.scope d.name d.range) = false)
    (hlhs : lookup idx identHash = some [lh0])
    (hpkg : lookup proj.storedPackages lh0 = none) :
    processDependency cfg proj idx identHash d cwd =
      { warnings := [], action := .error .pinToUndefined } := by
  rw [processDependency]
  simp [hgate, honly, hlhs, hpkg]

theorem finishAction_plan_inv {range : Rng} {pinTo p : Package}
    (h : finishAction range pinTo = .plan p) :
    pinTo = p ∧ rangeEqVersion range pinTo.version = false := by
  rw [finishAction] at h
  split at h
  · cases h
  · rename_i hre
    injection h with h1
    exact ⟨h1, Bool.eq_false_iff.mpr hre⟩

theorem satisfies_exact_iff (w v : Version) : satisfies w (.exact v) = true ↔ w = v := by
  simp [satisfies]

theorem finishAction_exact_self {p : Package} {v : Version} (hv : p.version = some v) :
    finishAction (.exact v) p = .alreadyPinned p := by
  rw [finishAction, if_pos]
  rw [hv]
  simp [rangeEqVersion]

theorem isDepInc_none {cfg : Config} (s : Option String) (n : String) (r : Rng)
    (halso : cfg.alsoIncludePackages = none) (honly : cfg.onlyPackages = none) :
    isDependencyExplicitlyIncluded cfg s n r = false := by
  rw [isDependencyExplicitlyIncluded, halso, honly]
  rfl

theorem omittedByOnly_none {cfg : Config} (ref : String)
    (honly : cfg.onlyPackages = none) : omittedByOnly cfg ref = false := by
  rw [omittedByOnly, honly]

/-- After a `plan p` decision, re-running `processDependency` on the
descriptor whose range has been rewritten to `p`'s exact version makes
a non-plan decision (already pinned, or skipped when the version was
`null`) — the per-entry core of the idempotence property.  Requires
that no `--also`/`--only` package filters are configured (an `--also`
filter matching the pinned exact range would re-enter the
explicit-include path) and a consistent package store. -/
theorem processDependency_idem
    {cfg : Config} {proj : Project} {idx : List (IdentHash × List LocatorHash)}
    {identHash : IdentHash} {d : Descriptor} {cwd : String} {p : Package}
    (hwf : pkgHashWF proj = true)
    (halso : cfg.alsoIncludePackages = none)
    (honly : cfg.onlyPackages = none)
    (h1 : (processDependency cfg proj idx identHash d cwd).action = .ok (.plan p)) :
    rangeEqVersion d.range p.version = false ∧
    ∃ a2, (processDependency cfg proj idx identHash
        { d with range := rngOfVersion p.version } cwd).action = .ok a2 ∧
      planOf a2 = none := by
  have hexp : ∀ r, isDependencyExplicitlyIncluded cfg none d.name r = false :=
    fun r => isDepInc_none none d.name r halso honly
  have homit : ∀ r, omittedByOnly cfg (pRef d.scope d.name r) = false :=
    fun r => omittedByOnly_none _ honly
  cases hpin : needsPin d.range with
  | false =>
    rw [processDependency_skip hpin (hexp d.range)] at h1
    simp at h1
  | true =>
    have hgate : (!needsPin d.range &&
        !isDependencyExplicitlyIncluded cfg none d.name d.range) = false := by
      rw [hpin]
      rfl
    cases hlhs : lookup idx identHash with
    | none =>
      rw [processDependency_missing_none hgate (homit d.range) hlhs] at h1
      simp at h1
    | some lhs =>
      by_cases hlen : 1 < lhs.length
      · cases hraw : candidateList proj lhs with
        | error e =>
          rw [processDependency_multi_error hgate (homit d.range) hlhs hlen hraw] at h1
          simp at h1
        | ok raw =>
          rw [processDependency_eq_pickAndWarn hgate (homit d.range) hlhs hlen hraw,
            hexp d.range] at h1
          cases hsort : candidateSort false (keptCandidates false d.range raw) with
          | nil =>
            rw [pickAndWarn_empty hsort] at h1
            simp at h1
          | cons c0 t =>
            cases hlook : lookup proj.storedPackages c0.locatorHash with
            | none =>
              rw [pickAndWarn_nolookup hsort hlook] at h1
              simp at h1
            | some pinTo =>
              rw [pickAndWarn_eq hsort hlook] at h1
              have h1' : finishAction d.range pinTo = .plan p := by simpa using h1
              obtain ⟨hpt, hre⟩ := finishAction_plan_inv h1'
              subst hpt
              have hsortd : sortDescByVersion (keptCandidates false d.range raw) = c0 :: t := by
                rw [← candidateSort_false]
                exact hsort
              have hc0kept : c0 ∈ keptCandidates false d.range raw := by
                apply mem_sortDescByVersion.mp
                rw [hsortd]
                exact List.mem_cons_self c0 t
              have hc0raw : some c0 ∈ raw := (keptCandidates_mem.mp hc0kept).1
              have hself := candidateList_self hwf hraw c0 hc0raw
              have hc0pin : c0 = pinTo := by
                rw [hself] at hlook
                injection hlook
              subst hc0pin
              refine ⟨hre, ?_⟩
              cases hv : c0.version with
              | none =>
                refine ⟨.skipped, ?_, rfl⟩
                rw [processDependency_skip (d := { d with range := rngOfVersion none })
                  rfl (hexp _)]
              | some v =>
                have hc0k2 : c0 ∈ keptCandidates false (.exact v) raw :=
                  keptCandidates_mem.mpr
                    ⟨hc0raw, v, hv, Or.inr (satisfies_exact_iff v v |>.mpr rfl)⟩
                cases hsort2 : sortDescByVersion (keptCandidates false (.exact v) raw) with
                | nil =>
                  exfalso
                  have := mem_sortDescByVersion.mpr hc0k2
                  rw [hsort2] at this
                  cases this
                | cons c0' t' =>
                  have hc0'k2 : c0' ∈ keptCandidates false (.exact v) raw := by
                    apply mem_sortDescByVersion.mp
                    rw [hsort2]
                    exact List.mem_cons_self c0' t'
                  have hraw' : some c0' ∈ raw := (keptCandidates_mem.mp hc0'k2).1
                  have hv' : c0'.version = some v := by
                    obtain ⟨hmm, v', hv'1, hor⟩ := keptCandidates_mem.mp hc0'k2
                    rcases hor with hfalse | hsat
                    · cases hfalse
                    · rw [hv'1, satisfies_exact_iff v' v |>.mp hsat]
                  have hlook' := candidateList_self hwf hraw c0' hraw'
                  refine ⟨.alreadyPinned c0', ?_, rfl⟩
                  rw [processDependency_eq_pickAndWarn
                    (d := { d with range := rngOfVersion (some v) })
                    rfl (omittedByOnly_none _ honly) hlhs hlen hraw]
                  dsimp only
                  simp only [rngOfVersion]
                  rw [hexp (.exact v),
                    pickAndWarn_eq (by rw [candidateSort_false]; exact hsort2) hlook']
                  dsimp only
                  rw [finishAction_exact_self hv']
      · by_cases hone : (lhs.length == 1) = true
        · obtain ⟨lh0, rfl⟩ : ∃ lh0, lhs = [lh0] :=
            List.length_eq_one.mp (by simpa using hone)
          cases hlook : lookup proj.storedPackages lh0 with
          | none =>
            rw [processDependency_single_nolookup hgate (homit _) hlhs hlook] at h1
            simp at h1
          | some pinTo =>
            rw [processDependency_single hgate (homit _) hlhs hlook] at h1
            have h1' : finishAction d.range pinTo = .plan p := by simpa using h1
            obtain ⟨hpt, hre⟩ := finishAction_plan_inv h1'
            subst hpt
            refine ⟨hre, ?_⟩
            cases hv : pinTo.version with
            | none =>
              refine ⟨.skipped, ?_, rfl⟩
              rw [processDependency_skip (d := { d with range := rngOfVersion none })
                rfl (hexp _)]
            | some v =>
              refine ⟨.alreadyPinned pinTo, ?_, rfl⟩
              rw [processDependency_single (d := { d with range := rngOfVersion (some v) })
                rfl (omittedByOnly_none _ honly) hlhs hlook]
              dsimp only
              simp only [rngOfVersion]
              rw [finishAction_exact_self hv]
        · rw [processDependency_missing_empty hgate (homit _) hlhs hlen
            (Bool.eq_false_iff.mpr hone)] at h1
          simp at h1

theorem updatePlan_lookup_ne {plan : WsPlan} {id0 id : IdentHash} {d : Descriptor}
    {a : PDAction} (h : ¬ id0 = id) :
    lookup (updatePlan plan id0 d a).pinnable id = lookup plan.pinnable id := by
  cases a with
  | plan p => exact lookup_setAssoc_ne _ _ _ _ h
  | skipped => rfl
  | omitted => rfl
  | alreadyPinned q => rfl

theorem updatePlan_lookup_self {plan : WsPlan} {id : IdentHash} {d : Descriptor}
    {a : PDAction} :
    lookup (updatePlan plan id d a).pinnable id =
      (match planOf a with
       | some p => some p
       | none => lookup plan.pinnable id) := by
  cases a with
  | plan p => exact lookup_setAssoc_self _ _ _
  | skipped => rfl
  | omitted => rfl
  | alreadyPinned q => rfl

theorem updatePlan_noplan {plan : WsPlan} {id : IdentHash} {d : Descriptor}
    {a : PDAction} (h : planOf a = none) : updatePlan plan id d a = plan := by
  cases a with
  | plan p => simp [planOf] at h
  | skipped => rfl
  | omitted => rfl
  | alreadyPinned q => rfl

theorem updatePlan_nodup {plan : WsPlan} {id : IdentHash} {d : Descriptor}
    {a : PDAction} (h : (plan.pinnable.map Prod.fst).Nodup) :
    ((updatePlan plan id d a).pinnable.map Prod.fst).Nodup := by
  cases a with
  | plan p => exact nodup_keys_setAssoc h
  | skipped => exact h
  | omitted => exact h
  | alreadyPinned q => exact h

theorem updatePlan_keys_sub {plan : WsPlan} {id0 id : IdentHash} {d : Descriptor}
    {a : PDAction} (h : id ∈ (updatePlan plan id0 d a).pinnable.map Prod.fst) :
    id ∈ plan.pinnable.map Prod.fst ∨ id = id0 := by
  cases a with
  | plan p => exact keys_setAssoc_sub h
  | skipped => exact Or.inl h
  | omitted => exact Or.inl h
  | alreadyPinned q => exact Or.inl h

theorem processEntries_ok_each {cfg : Config} {proj : Project}
    {idx : List (IdentHash × List LocatorHash)} {cwd : String}
    {entries : List (IdentHash × Descriptor)} :
    ∀ {plan0 : WsPlan} {w0 : List Warn} {planE : WsPlan} {wE : List Warn},
    processEntries cfg proj idx cwd entries plan0 w0 = .ok (planE, wE) →
    ∀ e ∈ entries, ∃ a, (processDependency cfg proj idx e.1 e.2 cwd).action = .ok a := by
  induction entries with
  | nil =>
    intro plan0 w0 planE wE h e he
    cases he
  | cons e0 rest ih =>
    intro plan0 w0 planE wE h e he
    obtain ⟨id0, d0⟩ := e0
    rw [processEntries] at h
    split at h
    · cases h
    · rename_i a heq
      rcases List.mem_cons.mp he with rfl | he2
      · exact ⟨a, heq⟩
      · exact ih h e he2

theorem processEntries_lookup_preserve {cfg : Config} {proj : Project}
    {idx : List (IdentHash × List LocatorHash)} {cwd : String}
    {entries : List (IdentHash × Descriptor)} :
    ∀ {plan0 : WsPlan} {w0 : List Warn} {planE : WsPlan} {wE : List Warn} {id : IdentHash},
    processEntries cfg proj idx cwd entries plan0 w0 = .ok (planE, wE) →
    ¬ id ∈ entries.map Prod.fst →
    lookup planE.pinnable id = lookup plan0.pinnable id := by
  induction entries with
  | nil =>
    intro plan0 w0 planE wE id h hid
    rw [processEntries] at h
    injection h with h1
    rw [(Prod.mk.injEq _ _ _ _ |>.mp h1.symm).1]
  | cons e0 rest ih =>
    intro plan0 w0 planE wE id h hid
    obtain ⟨id0, d0⟩ := e0
    rw [processEntries] at h
    split at h
    · cases h
    · rename_i a heq
      have hne : ¬ id0 = id := by
        intro hcontra
        apply hid
        rw [List.map_cons, hcontra]
        exact List.mem_cons_self _ _
      have hid2 : ¬ id ∈ rest.map Prod.fst := by
        intro hcontra
        exact hid (by rw [List.map_cons]; exact List.mem_cons_of_mem _ hcontra)
      rw [ih h hid2, updatePlan_lookup_ne hne]

theorem processEntries_lookup_entry {cfg : Config} {proj : Project}
    {idx : List (IdentHash × List LocatorHash)} {cwd : String}
    {entries : List (IdentHash × Descriptor)} :
    ∀ {plan0 : WsPlan} {w0 : List Warn} {planE : WsPlan} {wE : List Warn}
      {id : IdentHash} {d : Descriptor},
    (entries.map Prod.fst).Nodup →
    (id, d) ∈ entries →
    processEntries cfg proj idx cwd entries plan0 w0 = .ok (planE, wE) →
    ∃ a, (processDependency cfg proj idx id d cwd).action = .ok a ∧
      lookup planE.pinnable id =
        (match planOf a with
         | some p => some p
         | none => lookup plan0.pinnable id) := by
  induction entries with
  | nil =>
    intro plan0 w0 planE wE id d hnodup hmem h
    cases hmem
  | cons e0 rest ih =>
    intro plan0 w0 planE wE id d hnodup hmem h
    obtain ⟨id0, d0⟩ := e0
    simp only [List.map_cons, List.nodup_cons] at hnodup
    rw [processEntries] at h
    split at h
    · cases h
    · rename_i a heq
      rcases List.mem_cons.mp hmem with heq2 | hmem2
      · injection heq2 with h1 h2
        subst h1
        subst h2
        have hidrest : ¬ id ∈ rest.map Prod.fst := hnodup.1
        refine ⟨a, heq, ?_⟩
        rw [processEntries_lookup_preserve h hidrest, updatePlan_lookup_self]
      · have hne : ¬ id0 = id := by
          intro hcontra
          subst hcontra
          exact hnodup.1 (List.mem_map.mpr ⟨(id0, d), hmem2, rfl⟩)
        obtain ⟨a2, ha2, hl2⟩ := ih hnodup.2 hmem2 h
        refine ⟨a2, ha2, ?_⟩
        rw [hl2]
        cases hpl : planOf a2 with
        | some p => rfl
        | none => exact updatePlan_lookup_ne hne

theorem processEntries_noplan {cfg : Config} {proj : Project}
    {idx : List (IdentHash × List LocatorHash)} {cwd : String}
    {entries : List (IdentHash × Descriptor)} :
    ∀ {q : WsPlan} {u : List Warn},
    (∀ e ∈ entries, ∃ a, (processDependency cfg proj idx e.1 e.2 cwd).action = .ok a ∧
      planOf a = none) →
    ∃ wE, processEntries cfg proj idx cwd entries q u = .ok (q, wE) := by
  induction entries with
  | nil =>
    intro plan0 w0 hall
    exact ⟨w0, rfl⟩
  | cons e0 rest ih =>
    intro plan0 w0 hall
    obtain ⟨id0, d0⟩ := e0
    obtain ⟨a, ha, hpl⟩ := hall (id0, d0) (List.mem_cons_self _ _)
    obtain ⟨wE, hrest⟩ := ih (fun e he => hall e (List.mem_cons_of_mem _ he))
    refine ⟨wE, ?_⟩
    rw [processEntries]
    simp only [ha]
    rw [updatePlan_noplan hpl]
    exact hrest

theorem processEntries_nodup {cfg : Config} {proj : Project}
    {idx : List (IdentHash × List LocatorHash)} {cwd : String}
    {entries : List (IdentHash × Descriptor)} :
    ∀ {plan0 : WsPlan} {w0 : List Warn} {planE : WsPlan} {wE : List Warn},
    processEntries cfg proj idx cwd entries plan0 w0 = .ok (planE, wE) →
    (plan0.pinnable.map Prod.fst).Nodup →
    (planE.pinnable.map Prod.fst).Nodup := by
  induction entries with
  | nil =>
    intro plan0 w0 planE wE h h0
    rw [processEntries] at h
    injection h with h1
    rw [← (Prod.mk.injEq _ _ _ _ |>.mp h1).1]
    exact h0
  | cons e0 rest ih =>
    intro plan0 w0 planE wE h h0
    obtain ⟨id0, d0⟩ := e0
    rw [processEntries] at h
    split at h
    · cases h
    · exact ih h (updatePlan_nodup h0)

theorem processEntries_keys_sub {cfg : Config} {proj : Project}
    {idx : List (IdentHash × List LocatorHash)} {cwd : String}
    {entries : List (IdentHash × Descriptor)} :
    ∀ {plan0 : WsPlan} {w0 : List Warn} {planE : WsPlan} {wE : List Warn} {id : IdentHash},
    processEntries cfg proj idx cwd entries plan0 w0 = .ok (planE, wE) →
    id ∈ planE.pinnable.map Prod.fst →
    id ∈ plan0.pinnable.map Prod.fst ∨ id ∈ entries.map Prod.fst := by
  induction entries with
  | nil =>
    intro plan0 w0 planE wE id h hid
    rw [processEntries] at h
    injection h with h1
    rw [← (Prod.mk.injEq _ _ _ _ |>.mp h1).1] at hid
    exact Or.inl hid
  | cons e0 rest ih =>
    intro plan0 w0 planE wE id h hid
    obtain ⟨id0, d0⟩ := e0
    rw [processEntries] at h
    split at h
    · cases h
    · rcases ih h hid with h2 | h2
      · rcases updatePlan_keys_sub h2 with h3 | h3
        · exact Or.inl h3
        · exact Or.inr (by rw [List.map_cons, h3]; exact List.mem_cons_self _ _)
      · exact Or.inr (by rw [List.map_cons]; exact List.mem_cons_of_mem _ h2)

theorem lookup_some_mem_keys {κ α : Type} [BEq κ] [LawfulBEq κ]
    {l : List (κ × α)} {k : κ} {v : α} (h : lookup l k = some v) :
    k ∈ l.map Prod.fst :=
  List.mem_map.mpr ⟨(k, v), lookup_mem h, rfl⟩

theorem lookup_none_of_not_mem_keys {κ α : Type} [BEq κ] [LawfulBEq κ]
    {l : List (κ × α)} {k : κ} (h : ¬ k ∈ l.map Prod.fst) : lookup l k = none := by
  cases hl : lookup l k with
  | none => rfl
  | some v => exact absurd (lookup_some_mem_keys hl) h

theorem lookup_cons_self {κ α : Type} [BEq κ] [LawfulBEq κ]
    {l : List (κ × α)} {k : κ} {v : α} : lookup ((k, v) :: l) k = some v := by
  rw [lookup, if_pos (by simp)]

theorem lookup_cons_ne {κ α : Type} [BEq κ] [LawfulBEq κ]
    {l : List (κ × α)} {k k' : κ} {v : α} (h : ¬ k = k') :
    lookup ((k, v) :: l) k' = lookup l k' := by
  rw [lookup, if_neg (by simpa using h)]

theorem substEntry_some {P : List (IdentHash × Package)} {e : IdentHash × Descriptor}
    {p : Package} (h : lookup P e.1 = some p) :
    substEntry P e = (e.1, postDesc e.2 p) := by
  rw [substEntry, h]

theorem substEntry_none {P : List (IdentHash × Package)} {e : IdentHash × Descriptor}
    (h : lookup P e.1 = none) : substEntry P e = e := by
  rw [substEntry, h]

theorem substEntry_skip {id : IdentHash} {p : Package} {P' : List (IdentHash × Package)}
    {l : List (IdentHash × Descriptor)} (hid : ¬ id ∈ l.map Prod.fst) :
    l.map (fun e => substEntry P' e) = l.map (fun e => substEntry ((id, p) :: P') e) := by
  apply List.map_congr_left
  intro e he
  have hne : ¬ id = e.1 := by
    intro hcontra
    exact hid (hcontra ▸ List.mem_map.mpr ⟨e, he, rfl⟩)
  cases hcl : lookup P' e.1 with
  | some q =>
    rw [substEntry_some hcl, substEntry_some (by rw [lookup_cons_ne hne]; exact hcl)]
  | none =>
    rw [substEntry_none hcl, substEntry_none (by rw [lookup_cons_ne hne]; exact hcl)]

theorem substEntry_step_eq {id : IdentHash} {p : Package} {P' : List (IdentHash × Package)}
    {l : List (IdentHash × Descriptor)} {d : Descriptor}
    (hnodupP : ¬ id ∈ P'.map Prod.fst)
    (hnodupl : (l.map Prod.fst).Nodup)
    (hld : lookup l id = some d)
    (hre : rangeEqVersion d.range p.version = true) :
    l.map (fun e => substEntry P' e) = l.map (fun e => substEntry ((id, p) :: P') e) := by
  apply List.map_congr_left
  intro e he
  by_cases hkey : e.1 = id
  · have hed : e.2 = d := by
      have h1 : lookup l e.1 = some e.2 := lookup_eq_of_mem_nodup hnodupl (by
        rw [show (e.1, e.2) = e from rfl]
        exact he)
      rw [hkey, hld] at h1
      injection h1 with h2
      exact h2.symm
    have hlP' : lookup P' e.1 = none :=
      lookup_none_of_not_mem_keys (by rw [hkey]; exact hnodupP)
    rw [substEntry_none hlP',
      substEntry_some (by rw [hkey]; exact lookup_cons_self)]
    rw [hed, postDesc, if_pos hre, hkey]
    exact Prod.ext hkey hed
  · cases hcl : lookup P' e.1 with
    | some q =>
      rw [substEntry_some hcl,
        substEntry_some (by rw [lookup_cons_ne (fun hh => hkey hh.symm)]; exact hcl)]
    | none =>
      rw [substEntry_none hcl,
        substEntry_none (by rw [lookup_cons_ne (fun hh => hkey hh.symm)]; exact hcl)]

theorem substEntry_step {id : IdentHash} {p : Package} {P' : List (IdentHash × Package)}
    {l : List (IdentHash × Descriptor)} {d : Descriptor}
    (hnodupP : ¬ id ∈ P'.map Prod.fst)
    (hnodupl : (l.map Prod.fst).Nodup)
    (hld : lookup l id = some d)
    (hre : rangeEqVersion d.range p.version = false) :
    (setAssoc l id { d with range := rngOfVersion p.version }).map
        (fun e => substEntry P' e) =
      l.map (fun e => substEntry ((id, p) :: P') e) := by
  rw [setAssoc_eq_map hnodupl (lookup_some_mem_keys hld), List.map_map]
  apply List.map_congr_left
  intro e he
  by_cases hkey : e.1 = id
  · have hed : e.2 = d := by
      have h1 : lookup l e.1 = some e.2 := lookup_eq_of_mem_nodup hnodupl (by
        rw [show (e.1, e.2) = e from rfl]
        exact he)
      rw [hkey, hld] at h1
      injection h1 with h2
      exact h2.symm
    have hlP' : lookup P' id = none := lookup_none_of_not_mem_keys hnodupP
    simp only [Function.comp]
    rw [if_pos (by simpa using hkey)]
    rw [substEntry_none (e := (id, { d with range := rngOfVersion p.version })) hlP',
      substEntry_some (by rw [hkey]; exact lookup_cons_self)]
    rw [hed, postDesc, if_neg (by rw [hre]; intro hc; cases hc), hkey]
  · simp only [Function.comp]
    rw [if_neg (by simpa using hkey)]
    cases hcl : lookup P' e.1 with
    | some q =>
      rw [substEntry_some hcl,
        substEntry_some (by rw [lookup_cons_ne (fun hh => hkey hh.symm)]; exact hcl)]
    | none =>
      rw [substEntry_none hcl,
        substEntry_none (by rw [lookup_cons_ne (fun hh => hkey hh.symm)]; exact hcl)]

theorem applyEntries_step_dep {mpath : String} {P' : List (IdentHash × Package)}
    {m : Manifest} {n0 : Nat} {w0 : List Warn} {id : IdentHash} {p : Package}
    {d : Descriptor}
    (hcd : lookup m.dependencies id = some d)
    (hcv : lookup m.devDependencies id = none) :
    applyEntries mpath ((id, p) :: P') m n0 w0 =
      if rangeEqVersion d.range p.version then
        applyEntries mpath P' m n0 (w0 ++ [])
      else
        applyEntries mpath P'
          ⟨m.name, setAssoc m.dependencies id { d with range := rngOfVersion p.version },
            m.devDependencies⟩ (n0 + 1) (w0 ++ []) := by
  by_cases hre : rangeEqVersion d.range p.version = true
  · rw [if_pos hre, applyEntries]
    simp only [hcd, hcv]
    rw [if_pos]
    exact hre
  · rw [if_neg hre, applyEntries]
    simp only [hcd, hcv]
    rw [if_neg]
    · rfl
    · intro hc
      exact hre hc

theorem applyEntries_step_dev {mpath : String} {P' : List (IdentHash × Package)}
    {m : Manifest} {n0 : Nat} {w0 : List Warn} {id : IdentHash} {p : Package}
    {d : Descriptor}
    (hcd : lookup m.dependencies id = none)
    (hcv : lookup m.devDependencies id = some d) :
    applyEntries mpath ((id, p) :: P') m n0 w0 =
      if rangeEqVersion d.range p.version then
        applyEntries mpath P' m n0 (w0 ++ [])
      else
        applyEntries mpath P'
          ⟨m.name, m.dependencies,
            setAssoc m.devDependencies id { d with range := rngOfVersion p.version }⟩
          (n0 + 1) (w0 ++ []) := by
  by_cases hre : rangeEqVersion d.range p.version = true
  · rw [if_pos hre, applyEntries]
    simp only [hcd, hcv]
    rw [if_pos]
    exact hre
  · rw [if_neg hre, applyEntries]
    simp only [hcd, hcv]
    rw [if_neg]
    · rfl
    · intro hc
      exact hre hc

theorem applyEntries_subst {s : String} {P : List (IdentHash × Package)} :
    ∀ {m : Manifest} {k : Nat} {u : List Warn},
    ManifestSeparated m →
    (P.map Prod.fst).Nodup →
    (∀ pr ∈ P, pr.1 ∈ m.dependencies.map Prod.fst ∨
      pr.1 ∈ m.devDependencies.map Prod.fst) →
    ∃ n wE, applyEntries s P m k u =
      .ok (⟨m.name, m.dependencies.map (fun e => substEntry P e),
            m.devDependencies.map (fun e => substEntry P e)⟩, n, wE) := by
  induction P with
  | nil =>
    intro m n0 w0 hsep hnodup hkeys
    refine ⟨n0, w0, ?_⟩
    rw [applyEntries]
    have hmap : ∀ l : List (IdentHash × Descriptor),
        l.map (fun e => substEntry ([] : List (IdentHash × Package)) e) = l := by
      intro l
      have : ∀ e ∈ l, substEntry ([] : List (IdentHash × Package)) e = id e :=
        fun e _ => rfl
      rw [List.map_congr_left this, List.map_id]
    rw [hmap, hmap]
  | cons pr P' ih =>
    intro m n0 w0 hsep hnodup hkeys
    obtain ⟨id, p⟩ := pr
    simp only [List.map_cons, List.nodup_cons] at hnodup
    obtain ⟨hsepd, hsepv, hsepdisj⟩ := hsep
    rcases hkeys (id, p) (List.mem_cons_self _ _) with hd | hd
    · -- the planned ident lives in the regular dependencies map
      have hdev : ¬ id ∈ m.devDependencies.map Prod.fst := hsepdisj id hd
      have hcds : (lookup m.dependencies id).isSome = true := lookup_isSome_of_mem_keys hd
      cases hcd : lookup m.dependencies id with
      | none => rw [hcd] at hcds; cases hcds
      | some d =>
        have hcv : lookup m.devDependencies id = none := lookup_none_of_not_mem_keys hdev
        rw [applyEntries_step_dep hcd hcv]
        cases hre : rangeEqVersion d.range p.version with
        | true =>
          rw [if_pos rfl]
          obtain ⟨n, wE, hrec⟩ := ih (m := m) ⟨hsepd, hsepv, hsepdisj⟩ hnodup.2
            (fun q hq => hkeys q (List.mem_cons_of_mem _ hq))
          refine ⟨n, wE, ?_⟩
          rw [hrec]
          rw [substEntry_step_eq hnodup.1 hsepd hcd hre,
            substEntry_skip (p := p) hdev]
        | false =>
          rw [if_neg (by simp [hre])]
          obtain ⟨n, wE, hrec⟩ := ih
            (m := ⟨m.name, setAssoc m.dependencies id
              { d with range := rngOfVersion p.version }, m.devDependencies⟩)
            ⟨by rw [keys_setAssoc_of_mem _ hd]; exact hsepd,
             hsepv,
             by
              intro k hk
              rw [keys_setAssoc_of_mem _ hd] at hk
              exact hsepdisj k hk⟩
            hnodup.2
            (by
              intro q hq
              rcases hkeys q (List.mem_cons_of_mem _ hq) with h2 | h2
              · exact Or.inl (by rw [keys_setAssoc_of_mem _ hd]; exact h2)
              · exact Or.inr h2)
          refine ⟨n, wE, ?_⟩
          rw [hrec]
          dsimp only
          rw [substEntry_step hnodup.1 hsepd hcd hre,
            substEntry_skip (p := p) hdev]
    · -- the planned ident lives in the devDependencies map
      have hdep : ¬ id ∈ m.dependencies.map Prod.fst := by
        intro hcontra
        exact hsepdisj id hcontra hd
      have hcds : (lookup m.devDependencies id).isSome = true := lookup_isSome_of_mem_keys hd
      cases hcd : lookup m.devDependencies id with
      | none => rw [hcd] at hcds; cases hcds
      | some d =>
        have hcv : lookup m.dependencies id = none := lookup_none_of_not_mem_keys hdep
        rw [applyEntries_step_dev hcv hcd]
        cases hre : rangeEqVersion d.range p.version with
        | true =>
          rw [if_pos rfl]
          obtain ⟨n, wE, hrec⟩ := ih (m := m) ⟨hsepd, hsepv, hsepdisj⟩ hnodup.2
            (fun q hq => hkeys q (List.mem_cons_of_mem _ hq))
          refine ⟨n, wE, ?_⟩
          rw [hrec]
          rw [substEntry_step_eq hnodup.1 hsepv hcd hre,
            substEntry_skip (p := p) hdep]
        | false =>
          rw [if_neg (by simp [hre])]
          obtain ⟨n, wE, hrec⟩ := ih
            (m := ⟨m.name, m.dependencies, setAssoc m.devDependencies id
              { d with range := rngOfVersion p.version }⟩)
            ⟨hsepd,
             by rw [keys_setAssoc_of_mem _ hd]; exact hsepv,
             by
              intro k hk
              rw [keys_setAssoc_of_mem _ hd]
              exact hsepdisj k hk⟩
            hnodup.2
            (by
              intro q hq
              rcases hkeys q (List.mem_cons_of_mem _ hq) with h2 | h2
              · exact Or.inl h2
              · exact Or.inr (by rw [keys_setAssoc_of_mem _ hd]; exact h2))
          refine ⟨n, wE, ?_⟩
          rw [hrec]
          dsimp only
          rw [substEntry_step hnodup.1 hsepv hcd hre,
            substEntry_skip (p := p) hdep]

theorem substEntry_fst {P : List (IdentHash × Package)} {e : IdentHash × Descriptor} :
    (substEntry P e).1 = e.1 := by
  rw [substEntry]
  split <;> rfl

theorem entry_idem {cfg : Config} {proj : Project}
    {idx : List (IdentHash × List LocatorHash)} {cwd : String}
    {id : IdentHash} {d1 : Descriptor} {P : List (IdentHash × Package)} {a : PDAction}
    (hwf : pkgHashWF proj = true)
    (halso : cfg.alsoIncludePackages = none)
    (honly : cfg.onlyPackages = none)
    (ha : (processDependency cfg proj idx id d1 cwd).action = .ok a)
    (hlookP : lookup P id = planOf a) :
    ∃ a2, (processDependency cfg proj idx id (substEntry P (id, d1)).2 cwd).action = .ok a2 ∧
      planOf a2 = none := by
  cases hpl : planOf a with
  | none =>
    rw [hpl] at hlookP
    rw [substEntry_none hlookP]
    exact ⟨a, ha, hpl⟩
  | some p =>
    have hap : a = .plan p := by
      cases a with
      | plan q =>
        simp only [planOf, Option.some.injEq] at hpl
        rw [hpl]
      | skipped => simp [planOf] at hpl
      | omitted => simp [planOf] at hpl
      | alreadyPinned q => simp [planOf] at hpl
    subst hap
    rw [hpl] at hlookP
    obtain ⟨hre, a2, ha2, hpl2⟩ := processDependency_idem hwf halso honly ha
    rw [substEntry_some hlookP]
    dsimp only
    rw [postDesc, if_neg (by simp [hre])]
    exact ⟨a2, ha2, hpl2⟩

theorem entries_idem {cfg : Config} {proj : Project}
    {idx : List (IdentHash × List LocatorHash)} {cwd : String}
    {entries : List (IdentHash × Descriptor)} {plan0 planE : WsPlan}
    {w0 wE : List Warn} {P : List (IdentHash × Package)}
    (hwf : pkgHashWF proj = true)
    (halso : cfg.alsoIncludePackages = none)
    (honly : cfg.onlyPackages = none)
    (hnodup : (entries.map Prod.fst).Nodup)
    (hpe : processEntries cfg proj idx cwd entries plan0 w0 = .ok (planE, wE))
    (hbase : ∀ e ∈ entries, lookup plan0.pinnable e.1 = none)
    (hfinal : ∀ e ∈ entries, lookup P e.1 = lookup planE.pinnable e.1) :
    ∀ e2 ∈ entries.map (fun e => substEntry P e),
      ∃ a2, (processDependency cfg proj idx e2.1 e2.2 cwd).action = .ok a2 ∧
        planOf a2 = none := by
  intro e2 he2
  obtain ⟨e, he, rfl⟩ := List.mem_map.mp he2
  obtain ⟨id, d1⟩ := e
  obtain ⟨a, ha, hchar⟩ := processEntries_lookup_entry hnodup he hpe
  have hlookP : lookup P id = planOf a := by
    have hfin := hfinal (id, d1) he
    rw [hfin, hchar]
    cases hpl : planOf a with
    | some p => rfl
    | none => exact hbase (id, d1) he
  rw [substEntry_fst]
  exact entry_idem hwf halso honly ha hlookP

theorem processWs_eq_dev_only {cfg : Config} {proj : Project}
    {idx : List (IdentHash × List LocatorHash)} {ws : Workspace}
    (hod : cfg.onlyDevDependencies = true) :
    processWs cfg proj idx ws =
      processEntries cfg proj idx ws.cwd ws.manifest.devDependencies ⟨[], []⟩ [] := by
  rw [processWs, hod]
  rfl

theorem processWs_eq_deps_only {cfg : Config} {proj : Project}
    {idx : List (IdentHash × List LocatorHash)} {ws : Workspace}
    (hod : cfg.onlyDevDependencies = false)
    (hig : cfg.ignoreDevDependencies = true) :
    processWs cfg proj idx ws =
      processEntries cfg proj idx ws.cwd ws.manifest.dependencies ⟨[], []⟩ [] := by
  rw [processWs, hod, hig]
  cases hres : processEntries cfg proj idx ws.cwd ws.manifest.dependencies ⟨[], []⟩ [] with
  | error e => rfl
  | ok pr =>
    obtain ⟨plan, warns⟩ := pr
    rfl

theorem processWs_eq_both {cfg : Config} {proj : Project}
    {idx : List (IdentHash × List LocatorHash)} {ws : Workspace}
    (hod : cfg.onlyDevDependencies = false)
    (hig : cfg.ignoreDevDependencies = false) :
    processWs cfg proj idx ws =
      (match processEntries cfg proj idx ws.cwd ws.manifest.dependencies ⟨[], []⟩ [] with
       | .error e => .error e
       | .ok (plan, warns) =>
         processEntries cfg proj idx ws.cwd ws.manifest.devDependencies plan warns) := by
  rw [processWs, hod, hig]
  cases hres : processEntries cfg proj idx ws.cwd ws.manifest.dependencies ⟨[], []⟩ [] with
  | error e => rfl
  | ok pr =>
    obtain ⟨plan, warns⟩ := pr
    rfl

/-- After its plan has been applied to its manifest, re-planning a
workspace produces an empty plan. -/
theorem processWs_idem {cfg : Config} {proj : Project}
    {idx : List (IdentHash × List LocatorHash)} {ws : Workspace}
    {plan1 : WsPlan} {w1 : List Warn}
    (hwf : pkgHashWF proj = true)
    (halso : cfg.alsoIncludePackages = none)
    (honly : cfg.onlyPackages = none)
    (hsep : ManifestSeparated ws.manifest)
    (h1 : processWs cfg proj idx ws = .ok (plan1, w1))
    {mpath : String} {m2 : Manifest} {n : Nat} {w2 : List Warn}
    (ha : applyEntries mpath plan1.pinnable ws.manifest 0 [] = .ok (m2, n, w2))
    (rel2 : String) (disk2 : Manifest) :
    ∃ w3, processWs cfg proj idx ⟨ws.cwd, rel2, m2, disk2⟩ = .ok (⟨[], []⟩, w3) := by
  obtain ⟨hsepd, hsepv, hsepdisj⟩ := hsep
  cases hod : cfg.onlyDevDependencies with
  | true =>
    rw [processWs_eq_dev_only hod] at h1
    have hkeys : ∀ pr ∈ plan1.pinnable,
        pr.1 ∈ ws.manifest.dependencies.map Prod.fst ∨
        pr.1 ∈ ws.manifest.devDependencies.map Prod.fst := by
      intro pr hpr
      have hmemk : pr.1 ∈ plan1.pinnable.map Prod.fst := List.mem_map.mpr ⟨pr, hpr, rfl⟩
      rcases processEntries_keys_sub h1 hmemk with h2 | h2
      · cases h2
      · exact Or.inr h2
    have hPnodup : (plan1.pinnable.map Prod.fst).Nodup :=
      processEntries_nodup h1 (by simp)
    obtain ⟨nA, wA, hae⟩ := applyEntries_subst (s := mpath) (k := 0) (u := [])
      ⟨hsepd, hsepv, hsepdisj⟩ hPnodup hkeys
    rw [ha] at hae
    injection hae with hae1
    have hm2 : m2 = ⟨ws.manifest.name,
        ws.manifest.dependencies.map (fun e => substEntry plan1.pinnable e),
        ws.manifest.devDependencies.map (fun e => substEntry plan1.pinnable e)⟩ :=
      congrArg Prod.fst hae1
    have hidem := entries_idem hwf halso honly hsepv h1
      (fun _ _ => rfl) (fun _ _ => rfl)
    obtain ⟨wE2, hpe2⟩ := processEntries_noplan (q := ⟨[], []⟩) (u := []) hidem
    refine ⟨wE2, ?_⟩
    rw [processWs_eq_dev_only hod]
    dsimp only
    rw [hm2]
    exact hpe2
  | false =>
    cases hig : cfg.ignoreDevDependencies with
    | true =>
      rw [processWs_eq_deps_only hod hig] at h1
      have hkeys : ∀ pr ∈ plan1.pinnable,
          pr.1 ∈ ws.manifest.dependencies.map Prod.fst ∨
          pr.1 ∈ ws.manifest.devDependencies.map Prod.fst := by
        intro pr hpr
        have hmemk : pr.1 ∈ plan1.pinnable.map Prod.fst := List.mem_map.mpr ⟨pr, hpr, rfl⟩
        rcases processEntries_keys_sub h1 hmemk with h2 | h2
        · cases h2
        · exact Or.inl h2
      have hPnodup : (plan1.pinnable.map Prod.fst).Nodup :=
        processEntries_nodup h1 (by simp)
      obtain ⟨nA, wA, hae⟩ := applyEntries_subst (s := mpath) (k := 0) (u := [])
        ⟨hsepd, hsepv, hsepdisj⟩ hPnodup hkeys
      rw [ha] at hae
      injection hae with hae1
      have hm2 : m2 = ⟨ws.manifest.name,
          ws.manifest.dependencies.map (fun e => substEntry plan1.pinnable e),
          ws.manifest.devDependencies.map (fun e => substEntry plan1.pinnable e)⟩ :=
        congrArg Prod.fst hae1
      have hidem := entries_idem hwf halso honly hsepd h1
        (fun _ _ => rfl) (fun _ _ => rfl)
      obtain ⟨wE2, hpe2⟩ := processEntries_noplan (q := ⟨[], []⟩) (u := []) hidem
      refine ⟨wE2, ?_⟩
      rw [processWs_eq_deps_only hod hig]
      dsimp only
      rw [hm2]
      exact hpe2
    | false =>
      rw [processWs_eq_both hod hig] at h1
      cases heqA : processEntries cfg proj idx ws.cwd ws.manifest.dependencies ⟨[], []⟩ [] with
      | error e =>
        rw [heqA] at h1
        cases h1
      | ok prA =>
        obtain ⟨plA, wA⟩ := prA
        rw [heqA] at h1
        simp only at h1
        have hkeys : ∀ pr ∈ plan1.pinnable,
            pr.1 ∈ ws.manifest.dependencies.map Prod.fst ∨
            pr.1 ∈ ws.manifest.devDependencies.map Prod.fst := by
          intro pr hpr
          have hmemk : pr.1 ∈ plan1.pinnable.map Prod.fst := List.mem_map.mpr ⟨pr, hpr, rfl⟩
          rcases processEntries_keys_sub h1 hmemk with h2 | h2
          · rcases processEntries_keys_sub heqA h2 with h3 | h3
            · cases h3
            · exact Or.inl h3
          · exact Or.inr h2
        have hPnodup : (plan1.pinnable.map Prod.fst).Nodup :=
          processEntries_nodup h1 (processEntries_nodup heqA (by simp))
        obtain ⟨nA, wAE, hae⟩ := applyEntries_subst (s := mpath) (k := 0) (u := [])
          ⟨hsepd, hsepv, hsepdisj⟩ hPnodup hkeys
        rw [ha] at hae
        injection hae with hae1
        have hm2 : m2 = ⟨ws.manifest.name,
            ws.manifest.dependencies.map (fun e => substEntry plan1.pinnable e),
            ws.manifest.devDependencies.map (fun e => substEntry plan1.pinnable e)⟩ :=
          congrArg Prod.fst hae1
        have hfinA : ∀ e ∈ ws.manifest.dependencies,
            lookup plan1.pinnable e.1 = lookup plA.pinnable e.1 := by
          intro e he
          apply processEntries_lookup_preserve h1
          intro hcontra
          exact hsepdisj e.1 (List.mem_map.mpr ⟨e, he, rfl⟩) hcontra
        have hidemA := entries_idem hwf halso honly hsepd heqA
          (fun _ _ => rfl) hfinA
        obtain ⟨wA2, hpe2a⟩ := processEntries_noplan (q := ⟨[], []⟩) (u := []) hidemA
        have hbaseB : ∀ e ∈ ws.manifest.devDependencies, lookup plA.pinnable e.1 = none := by
          intro e he
          cases hl : lookup plA.pinnable e.1 with
          | none => rfl
          | some q =>
            exfalso
            rcases processEntries_keys_sub heqA (lookup_some_mem_keys hl) with h3 | h3
            · cases h3
            · exact hsepdisj e.1 h3 (List.mem_map.mpr ⟨e, he, rfl⟩)
        have hidemB := entries_idem hwf halso honly hsepv h1 hbaseB (fun _ _ => rfl)
        obtain ⟨wB2, hpe2b⟩ := processEntries_noplan (q := ⟨[], []⟩) (u := wA2) hidemB
        refine ⟨wB2, ?_⟩
        rw [processWs_eq_both hod hig]
        dsimp only
        rw [hm2]
        dsimp only
        rw [hpe2a]
        exact hpe2b

theorem gather_none {cfg : Config} (wss : List Workspace)
    (h : cfg.onlyWorkspaces = none) : gatherWorkspaces cfg wss = wss := by
  rw [gatherWorkspaces, h]

theorem lookup_setAssoc_isSome_mono {κ α : Type} [BEq κ] [LawfulBEq κ]
    {l : List (κ × α)} {k c : κ} {v : α}
    (h : (lookup l c).isSome = true) : (lookup (setAssoc l k v) c).isSome = true := by
  by_cases hk : k = c
  · subst hk
    rw [lookup_setAssoc_self]
    rfl
  · rw [lookup_setAssoc_ne _ _ _ _ hk]
    exact h

theorem findPinnable_nil {cfg : Config} {proj : Project}
    {idx : List (IdentHash × List LocatorHash)} {plans0 : List (String × WsPlan)}
    {w0 : List Warn} : findPinnable cfg proj idx [] plans0 w0 = .ok (plans0, w0) := rfl

theorem findPinnable_cons_error {cfg : Config} {proj : Project}
    {idx : List (IdentHash × List LocatorHash)} {ws : Workspace} {rest : List Workspace}
    {plans0 : List (String × WsPlan)} {w0 : List Warn} {e : JsErr}
    (hpw : processWs cfg proj idx ws = .error e) :
    findPinnable cfg proj idx (ws :: rest) plans0 w0 = .error e := by
  rw [findPinnable, hpw]

theorem findPinnable_cons_ok {cfg : Config} {proj : Project}
    {idx : List (IdentHash × List LocatorHash)} {ws : Workspace} {rest : List Workspace}
    {plans0 : List (String × WsPlan)} {w0 : List Warn} {pl : WsPlan} {w1 : List Warn}
    (hpw : processWs cfg proj idx ws = .ok (pl, w1)) :
    findPinnable cfg proj idx (ws :: rest) plans0 w0 =
      findPinnable cfg proj idx rest (setAssoc plans0 ws.cwd pl) (w0 ++ w1) := by
  rw [findPinnable, hpw]

theorem applyAll_nil {cfg : Config} {plans : List (String × WsPlan)} :
    applyAll cfg plans [] = .ok ([], [], []) := rfl

theorem applyAll_cons_error {cfg : Config} {plans : List (String × WsPlan)}
    {ws : Workspace} {rest : List Workspace} {e : JsErr}
    (h : applyWs cfg plans ws = .error e) :
    applyAll cfg plans (ws :: rest) = .error e := by
  rw [applyAll, h]

theorem applyAll_cons_ok {cfg : Config} {plans : List (String × WsPlan)}
    {ws ws2 : Workspace} {rest : List Workspace} {per : Bool} {w : List Warn}
    (h : applyWs cfg plans ws = .ok (ws2, per, w)) :
    applyAll cfg plans (ws :: rest) =
      (match applyAll cfg plans rest with
       | .error e => .error e
       | .ok (rest2, cwds, restWarns) =>
         .ok (ws2 :: rest2, (if per then [ws.cwd] else []) ++ cwds, w ++ restWarns)) := by
  rw [applyAll, h]

theorem findPinnable_isSome_mono {cfg : Config} {proj : Project}
    {idx : List (IdentHash × List LocatorHash)} {wss : List Workspace} :
    ∀ {plans0 : List (String × WsPlan)} {w0 : List Warn}
      {plans1 : List (String × WsPlan)} {wE : List Warn} {c : String},
    findPinnable cfg proj idx wss plans0 w0 = .ok (plans1, wE) →
    (lookup plans0 c).isSome = true →
    (lookup plans1 c).isSome = true := by
  induction wss with
  | nil =>
    intro plans0 w0 plans1 wE c h hs
    rw [findPinnable_nil] at h
    injection h with h1
    injection h1 with ha hb
    subst ha
    exact hs
  | cons ws rest ih =>
    intro plans0 w0 plans1 wE c h hs
    cases hpw : processWs cfg proj idx ws with
    | error e =>
      rw [findPinnable_cons_error hpw] at h
      cases h
    | ok pr =>
      obtain ⟨pl0, w1⟩ := pr
      rw [findPinnable_cons_ok hpw] at h
      exact ih h (lookup_setAssoc_isSome_mono hs)

theorem findPinnable_presence {cfg : Config} {proj : Project}
    {idx : List (IdentHash × List LocatorHash)} {wss : List Workspace} :
    ∀ {plans0 : List (String × WsPlan)} {w0 : List Warn}
      {plans1 : List (String × WsPlan)} {wE : List Warn},
    findPinnable cfg proj idx wss plans0 w0 = .ok (plans1, wE) →
    ∀ ws ∈ wss, (lookup plans1 ws.cwd).isSome = true := by
  induction wss with
  | nil =>
    intro plans0 w0 plans1 wE h ws hws
    cases hws
  | cons ws0 rest ih =>
    intro plans0 w0 plans1 wE h ws hws
    cases hpw : processWs cfg proj idx ws0 with
    | error e =>
      rw [findPinnable_cons_error hpw] at h
      cases h
    | ok pr =>
      obtain ⟨pl0, w1⟩ := pr
      rw [findPinnable_cons_ok hpw] at h
      rcases List.mem_cons.mp hws with rfl | hws2
      · exact findPinnable_isSome_mono h (by rw [lookup_setAssoc_self]; rfl)
      · exact ih h ws hws2

theorem findPinnable_lookup_preserve {cfg : Config} {proj : Project}
    {idx : List (IdentHash × List LocatorHash)} {wss : List Workspace} :
    ∀ {plans0 : List (String × WsPlan)} {w0 : List Warn}
      {plans1 : List (String × WsPlan)} {wE : List Warn} {c : String},
    findPinnable cfg proj idx wss plans0 w0 = .ok (plans1, wE) →
    ¬ c ∈ wss.map Workspace.cwd →
    lookup plans1 c = lookup plans0 c := by
  induction wss with
  | nil =>
    intro plans0 w0 plans1 wE c h hc
    rw [findPinnable_nil] at h
    injection h with h1
    injection h1 with ha hb
    subst ha
    rfl
  | cons ws0 rest ih =>
    intro plans0 w0 plans1 wE c h hc
    cases hpw : processWs cfg proj idx ws0 with
    | error e =>
      rw [findPinnable_cons_error hpw] at h
      cases h
    | ok pr =>
      obtain ⟨pl0, w1⟩ := pr
      rw [findPinnable_cons_ok hpw] at h
      have hc1 : ¬ ws0.cwd = c := by
        intro hcontra
        apply hc
        rw [List.map_cons, ← hcontra]
        exact List.mem_cons_self _ _
      have hc2 : ¬ c ∈ rest.map Workspace.cwd := by
        intro hcontra
        exact hc (by rw [List.map_cons]; exact List.mem_cons_of_mem _ hcontra)
      rw [ih h hc2, lookup_setAssoc_ne _ _ _ _ hc1]

theorem findPinnable_lookup_own {cfg : Config} {proj : Project}
    {idx : List (IdentHash × List LocatorHash)} {wss : List Workspace} :
    ∀ {plans0 : List (String × WsPlan)} {w0 : List Warn}
      {plans1 : List (String × WsPlan)} {wE : List Warn},
    (wss.map Workspace.cwd).Nodup →
    findPinnable cfg proj idx wss plans0 w0 = .ok (plans1, wE) →
    ∀ ws ∈ wss, ∃ pl w1, processWs cfg proj idx ws = .ok (pl, w1) ∧
      lookup plans1 ws.cwd = some pl := by
  induction wss with
  | nil =>
    intro plans0 w0 plans1 wE hnodup h ws hws
    cases hws
  | cons ws0 rest ih =>
    intro plans0 w0 plans1 wE hnodup h ws hws
    simp only [List.map_cons, List.nodup_cons] at hnodup
    cases hpw : processWs cfg proj idx ws0 with
    | error e =>
      rw [findPinnable_cons_error hpw] at h
      cases h
    | ok pr =>
      obtain ⟨pl0, w1⟩ := pr
      rw [findPinnable_cons_ok hpw] at h
      rcases List.mem_cons.mp hws with rfl | hws2
      · refine ⟨pl0, w1, hpw, ?_⟩
        rw [findPinnable_lookup_preserve h hnodup.1, lookup_setAssoc_self]
      · exact ih hnodup.2 h ws hws2

theorem applyWs_eq {cfg : Config} {plans : List (String × WsPlan)} {ws : Workspace}
    {pl : WsPlan} (hlook : lookup plans ws.cwd = some pl) :
    applyWs cfg plans ws =
      (match applyEntries (manifestPathOf ws.cwd) pl.pinnable ws.manifest 0 [] with
       | .error e => .error e
       | .ok (m2, numPinned, warns) =>
         .ok (⟨ws.cwd, ws.relativeCwd, m2,
           if decide (0 < numPinned) && !cfg.dryRun then m2 else ws.diskManifest⟩,
           decide (0 < numPinned) && !cfg.dryRun, warns)) := by
  rw [applyWs, hlook]

theorem applyWs_ok_shape {cfg : Config} {plans : List (String × WsPlan)} {ws : Workspace}
    {pl : WsPlan} {m2 : Manifest} {nP : Nat} {wP : List Warn}
    (hlook : lookup plans ws.cwd = some pl)
    (hae : applyEntries (manifestPathOf ws.cwd) pl.pinnable ws.manifest 0 [] =
      .ok (m2, nP, wP)) :
    applyWs cfg plans ws = .ok (⟨ws.cwd, ws.relativeCwd, m2,
      if decide (0 < nP) && !cfg.dryRun then m2 else ws.diskManifest⟩,
      decide (0 < nP) && !cfg.dryRun, wP) := by
  rw [applyWs_eq hlook, hae]

theorem applyWs_error_shape {cfg : Config} {plans : List (String × WsPlan)} {ws : Workspace}
    {pl : WsPlan} {e : JsErr}
    (hlook : lookup plans ws.cwd = some pl)
    (hae : applyEntries (manifestPathOf ws.cwd) pl.pinnable ws.manifest 0 [] = .error e) :
    applyWs cfg plans ws = .error e := by
  rw [applyWs_eq hlook, hae]

theorem applyAll_empty {cfg : Config} {plans : List (String × WsPlan)} :
    ∀ {wss : List Workspace},
    (∀ ws ∈ wss, ∃ pl, lookup plans ws.cwd = some pl ∧ pl.pinnable = []) →
    applyAll cfg plans wss = .ok (wss, [], []) := by
  intro wss
  induction wss with
  | nil => intro h; rfl
  | cons ws rest ih =>
    intro h
    obtain ⟨pl, hlook, hemp⟩ := h ws (List.mem_cons_self _ _)
    have hae : applyEntries (manifestPathOf ws.cwd) pl.pinnable ws.manifest 0 [] =
        .ok (ws.manifest, 0, []) := by
      rw [hemp]
      rfl
    have hws : applyWs cfg plans ws =
        .ok (⟨ws.cwd, ws.relativeCwd, ws.manifest, ws.diskManifest⟩, false, []) := by
      rw [applyWs_ok_shape hlook hae]
      rfl
    rw [applyAll_cons_ok hws, ih (fun w hw => h w (List.mem_cons_of_mem _ hw))]
    rfl

theorem planCount_zero {plans : List (String × WsPlan)}
    (h : AllEmptyPlans plans) : planCount plans = 0 := by
  induction plans with
  | nil => rfl
  | cons pr rest ih =>
    rw [planCount, h pr (List.mem_cons_self _ _),
      ih (fun q hq => h q (List.mem_cons_of_mem _ hq))]
    rfl

theorem findPinnable_after_apply {cfg : Config} {proj : Project}
    {idx : List (IdentHash × List LocatorHash)} (plans1 : List (String × WsPlan))
    (hwf : pkgHashWF proj = true)
    (halso : cfg.alsoIncludePackages = none)
    (honly : cfg.onlyPackages = none) :
    ∀ {wss wss2 : List Workspace} {per : List String} {aw : List Warn},
    (∀ ws ∈ wss, ManifestSeparated ws.manifest) →
    (∀ ws ∈ wss, ∃ pl w1, processWs cfg proj idx ws = .ok (pl, w1) ∧
      lookup plans1 ws.cwd = some pl) →
    applyAll cfg plans1 wss = .ok (wss2, per, aw) →
    ∀ {plans0 : List (String × WsPlan)} {w0 : List Warn}, AllEmptyPlans plans0 →
      ∃ plans2 wE, findPinnable cfg proj idx wss2 plans0 w0 = .ok (plans2, wE) ∧
        AllEmptyPlans plans2 := by
  intro wss
  induction wss with
  | nil =>
    intro wss2 per aw hsep hpw happ plans0 w0 hAE
    rw [applyAll_nil] at happ
    injection happ with h1
    injection h1 with ha hb
    subst ha
    exact ⟨plans0, w0, findPinnable_nil, hAE⟩
  | cons ws rest ih =>
    intro wss2 per aw hsep hpw happ plans0 w0 hAE
    obtain ⟨pl, w1, hpws, hlook⟩ := hpw ws (List.mem_cons_self _ _)
    cases hae : applyEntries (manifestPathOf ws.cwd) pl.pinnable ws.manifest 0 [] with
    | error e =>
      rw [applyAll_cons_error (applyWs_error_shape hlook hae)] at happ
      cases happ
    | ok pr =>
      obtain ⟨m2, pr2⟩ := pr
      obtain ⟨nP, wP⟩ := pr2
      rw [applyAll_cons_ok (applyWs_ok_shape hlook hae)] at happ
      cases hrest : applyAll cfg plans1 rest with
      | error e =>
        rw [hrest] at happ
        cases happ
      | ok pr3 =>
        obtain ⟨rest2, pr4⟩ := pr3
        obtain ⟨cwds, restWarns⟩ := pr4
        rw [hrest] at happ
        injection happ with h1
        have hwss2 : wss2 = ⟨ws.cwd, ws.relativeCwd, m2,
            if decide (0 < nP) && !cfg.dryRun then m2 else ws.diskManifest⟩ :: rest2 :=
          (congrArg Prod.fst h1).symm
        obtain ⟨w3, hpw2⟩ := processWs_idem hwf halso honly
          (hsep ws (List.mem_cons_self _ _)) hpws hae ws.relativeCwd
          (if decide (0 < nP) && !cfg.dryRun then m2 else ws.diskManifest)
        obtain ⟨plans2, wE, hfp2, hAE2⟩ := @ih rest2 cwds restWarns
          (fun w hw => hsep w (List.mem_cons_of_mem _ hw))
          (fun w hw => hpw w (List.mem_cons_of_mem _ hw)) hrest
          (setAssoc plans0 ws.cwd (⟨[], []⟩ : WsPlan)) (w0 ++ w3)
          (by
            intro q hq
            rcases mem_setAssoc hq with h2 | h2
            · exact hAE q h2
            · rw [h2])
        refine ⟨plans2, wE, ?_, hAE2⟩
        rw [hwss2, findPinnable_cons_ok hpw2]
        exact hfp2

theorem runPipeline_err_idx {cfg : Config} {proj : Project} {wss : List Workspace}
    {e : JsErr} (hidx : createLocatorsByIdentMap proj = .error e) :
    runPipeline cfg proj wss = .error e := by
  rw [runPipeline]
  simp only [hidx]

theorem runPipeline_err_plan {cfg : Config} {proj : Project} {wss : List Workspace}
    {idx : List (IdentHash × List LocatorHash)} {e : JsErr}
    (hidx : createLocatorsByIdentMap proj = .ok idx)
    (hfp : findPinnable cfg proj idx (gatherWorkspaces cfg wss) [] [] = .error e) :
    runPipeline cfg proj wss = .error e := by
  rw [runPipeline]
  simp only [hidx, hfp]

theorem runPipeline_err_apply {cfg : Config} {proj : Project} {wss : List Workspace}
    {idx : List (IdentHash × List LocatorHash)} {plans : List (String × WsPlan)}
    {warns : List Warn} {e : JsErr}
    (hidx : createLocatorsByIdentMap proj = .ok idx)
    (hfp : findPinnable cfg proj idx (gatherWorkspaces cfg wss) [] [] = .ok (plans, warns))
    (hap : applyAll cfg plans (gatherWorkspaces cfg wss) = .error e) :
    runPipeline cfg proj wss = .error e := by
  rw [runPipeline]
  simp only [hidx, hfp, hap]

theorem runPipeline_ok_shape {cfg : Config} {proj : Project} {wss : List Workspace}
    {idx : List (IdentHash × List LocatorHash)} {plans : List (String × WsPlan)}
    {warns : List Warn} {wss2 : List Workspace} {per : List String} {aw : List Warn}
    (hidx : createLocatorsByIdentMap proj = .ok idx)
    (hfp : findPinnable cfg proj idx (gatherWorkspaces cfg wss) [] [] = .ok (plans, warns))
    (hap : applyAll cfg plans (gatherWorkspaces cfg wss) = .ok (wss2, per, aw)) :
    runPipeline cfg proj wss = .ok ⟨wss2, plans, warns ++ aw, per⟩ := by
  rw [runPipeline]
  simp only [hidx, hfp, hap]

theorem runPipeline_inv {cfg : Config} {proj : Project} {wss : List Workspace}
    {out : RunOut} (h : runPipeline cfg proj wss = .ok out) :
    ∃ idx plans warns wss2 per aw,
      createLocatorsByIdentMap proj = .ok idx ∧
      findPinnable cfg proj idx (gatherWorkspaces cfg wss) [] [] = .ok (plans, warns) ∧
      applyAll cfg plans (gatherWorkspaces cfg wss) = .ok (wss2, per, aw) ∧
      out = ⟨wss2, plans, warns ++ aw, per⟩ := by
  cases hidx : createLocatorsByIdentMap proj with
  | error e =>
    rw [runPipeline_err_idx hidx] at h
    cases h
  | ok idx =>
    cases hfp : findPinnable cfg proj idx (gatherWorkspaces cfg wss) [] [] with
    | error e =>
      rw [runPipeline_err_plan hidx hfp] at h
      cases h
    | ok pr =>
      obtain ⟨plans, warns⟩ := pr
      cases hap : applyAll cfg plans (gatherWorkspaces cfg wss) with
      | error e =>
        rw [runPipeline_err_apply hidx hfp hap] at h
        cases h
      | ok pr2 =>
        obtain ⟨wss2, pr3⟩ := pr2
        obtain ⟨per, aw⟩ := pr3
        rw [runPipeline_ok_shape hidx hfp hap] at h
        injection h with h1
        exact ⟨idx, plans, warns, wss2, per, aw, rfl, hfp, hap, h1.symm⟩

theorem processDependency_dry (b : Bool) (cfg : Config) (proj : Project)
    (idx : List (IdentHash × List LocatorHash)) (i : IdentHash) (d : Descriptor)
    (c : String) :
    processDependency { cfg with dryRun := b } proj idx i d c =
      processDependency cfg proj idx i d c := rfl

theorem gather_dry (b : Bool) (cfg : Config) (wss : List Workspace) :
    gatherWorkspaces { cfg with dryRun := b } wss = gatherWorkspaces cfg wss := rfl

theorem processEntries_dry (b : Bool) (cfg : Config) (proj : Project)
    (idx : List (IdentHash × List LocatorHash)) (c : String) :
    ∀ (es : List (IdentHash × Descriptor)) (q : WsPlan) (u : List Warn),
    processEntries { cfg with dryRun := b } proj idx c es q u =
      processEntries cfg proj idx c es q u := by
  intro es
  induction es with
  | nil =>
    intro q u
    rfl
  | cons e rest ih =>
    intro q u
    obtain ⟨i, d⟩ := e
    simp only [processEntries, processDependency_dry b cfg proj idx i d c]
    cases ha : (processDependency cfg proj idx i d c).action with
    | error e2 => rfl
    | ok a => exact ih _ _

theorem processWs_dry (b : Bool) (cfg : Config) (proj : Project)
    (idx : List (IdentHash × List LocatorHash)) (ws : Workspace) :
    processWs { cfg with dryRun := b } proj idx ws = processWs cfg proj idx ws := by
  simp only [processWs, processEntries_dry]

theorem findPinnable_dry (b : Bool) (cfg : Config) (proj : Project)
    (idx : List (IdentHash × List LocatorHash)) :
    ∀ (wss : List Workspace) (q : List (String × WsPlan)) (u : List Warn),
    findPinnable { cfg with dryRun := b } proj idx wss q u =
      findPinnable cfg proj idx wss q u := by
  intro wss
  induction wss with
  | nil =>
    intro q u
    rfl
  | cons ws rest ih =>
    intro q u
    cases hpw : processWs cfg proj idx ws with
    | error e =>
      rw [findPinnable_cons_error ((processWs_dry b cfg proj idx ws).trans hpw),
        findPinnable_cons_error hpw]
    | ok pr =>
      obtain ⟨pl, w1⟩ := pr
      rw [findPinnable_cons_ok ((processWs_dry b cfg proj idx ws).trans hpw),
        findPinnable_cons_ok hpw]
      exact ih _ _

theorem applyWs_dry_ok (b : Bool) {cfg : Config} {plans : List (String × WsPlan)}
    {ws ws2 : Workspace} {per : Bool} {w : List Warn}
    (h : applyWs cfg plans ws = .ok (ws2, per, w)) :
    ∃ ws3 per2, applyWs { cfg with dryRun := b } plans ws = .ok (ws3, per2, w) := by
  cases hlook : lookup plans ws.cwd with
  | none =>
    rw [applyWs, hlook] at h
    cases h
  | some pl =>
    cases hae : applyEntries (manifestPathOf ws.cwd) pl.pinnable ws.manifest 0 [] with
    | error e =>
      rw [applyWs_error_shape hlook hae] at h
      cases h
    | ok pr =>
      obtain ⟨m2, pr2⟩ := pr
      obtain ⟨nP, wP⟩ := pr2
      rw [applyWs_ok_shape hlook hae] at h
      injection h with h1
      obtain ⟨h2, h3⟩ := Prod.mk.injEq _ _ _ _ |>.mp h1
      obtain ⟨h4, h5⟩ := Prod.mk.injEq _ _ _ _ |>.mp h3
      subst h5
      exact ⟨_, _, applyWs_ok_shape hlook hae⟩

theorem applyAll_dry_ok (b : Bool) {cfg : Config} {plans : List (String × WsPlan)} :
    ∀ {wss wss2 : List Workspace} {per : List String} {aw : List Warn},
    applyAll cfg plans wss = .ok (wss2, per, aw) →
    ∃ wss3 per2, applyAll { cfg with dryRun := b } plans wss = .ok (wss3, per2, aw) := by
  intro wss
  induction wss with
  | nil =>
    intro wss2 per aw h
    rw [applyAll_nil] at h
    injection h with h1
    obtain ⟨h2, h3⟩ := Prod.mk.injEq _ _ _ _ |>.mp h1
    obtain ⟨h4, h5⟩ := Prod.mk.injEq _ _ _ _ |>.mp h3
    subst h5
    exact ⟨[], [], applyAll_nil⟩
  | cons ws rest ih =>
    intro wss2 per aw h
    cases hws : applyWs cfg plans ws with
    | error e =>
      rw [applyAll_cons_error hws] at h
      cases h
    | ok pr =>
      obtain ⟨ws2a, pr2⟩ := pr
      obtain ⟨perA, wA⟩ := pr2
      rw [applyAll_cons_ok hws] at h
      cases hrest : applyAll cfg plans rest with
      | error e =>
        rw [hrest] at h
        cases h
      | ok pr3 =>
        obtain ⟨rest2, pr4⟩ := pr3
        obtain ⟨cwds, rw2⟩ := pr4
        rw [hrest] at h
        injection h with h1
        obtain ⟨h2, h3⟩ := Prod.mk.injEq _ _ _ _ |>.mp h1
        obtain ⟨h4, h5⟩ := Prod.mk.injEq _ _ _ _ |>.mp h3
        subst h5
        obtain ⟨ws3, per3, hws2⟩ := applyWs_dry_ok b hws
        obtain ⟨rest3, per4, hrest2⟩ := ih hrest
        refine ⟨ws3 :: rest3, (if per3 then [ws.cwd] else []) ++ per4, ?_⟩
        rw [applyAll_cons_ok hws2, hrest2]

theorem applyWs_dry_noPersist {cfg : Config} {plans : List (String × WsPlan)}
    {ws ws2 : Workspace} {per : Bool} {w : List Warn} (hdry : cfg.dryRun = true)
    (h : applyWs cfg plans ws = .ok (ws2, per, w)) :
    per = false ∧ ws2.diskManifest = ws.diskManifest := by
  cases hlook : lookup plans ws.cwd with
  | none =>
    rw [applyWs, hlook] at h
    cases h
  | some pl =>
    cases hae : applyEntries (manifestPathOf ws.cwd) pl.pinnable ws.manifest 0 [] with
    | error e =>
      rw [applyWs_error_shape hlook hae] at h
      cases h
    | ok pr =>
      obtain ⟨m2, pr2⟩ := pr
      obtain ⟨nP, wP⟩ := pr2
      rw [applyWs_ok_shape hlook hae, hdry] at h
      injection h with h1
      obtain ⟨h2, h3⟩ := Prod.mk.injEq _ _ _ _ |>.mp h1
      obtain ⟨h4, h5⟩ := Prod.mk.injEq _ _ _ _ |>.mp h3
      constructor
      · rw [← h4]
        simp
      · rw [← h2]
        simp

theorem applyAll_dry_frame {cfg : Config} {plans : List (String × WsPlan)}
    (hdry : cfg.dryRun = true) :
    ∀ {wss wss2 : List Workspace} {per : List String} {aw : List Warn},
    applyAll cfg plans wss = .ok (wss2, per, aw) →
    per = [] ∧ diskManifests wss2 = diskManifests wss := by
  intro wss
  induction wss with
  | nil =>
    intro wss2 per aw h
    rw [applyAll_nil] at h
    injection h with h1
    obtain ⟨h2, h3⟩ := Prod.mk.injEq _ _ _ _ |>.mp h1
    obtain ⟨h4, h5⟩ := Prod.mk.injEq _ _ _ _ |>.mp h3
    subst h2
    subst h4
    exact ⟨rfl, rfl⟩
  | cons ws rest ih =>
    intro wss2 per aw h
    cases hws : applyWs cfg plans ws with
    | error e =>
      rw [applyAll_cons_error hws] at h
      cases h
    | ok pr =>
      obtain ⟨ws2a, pr2⟩ := pr
      obtain ⟨perA, wA⟩ := pr2
      rw [applyAll_cons_ok hws] at h
      cases hrest : applyAll cfg plans rest with
      | error e =>
        rw [hrest] at h
        cases h
      | ok pr3 =>
        obtain ⟨rest2, pr4⟩ := pr3
        obtain ⟨cwds, rw2⟩ := pr4
        rw [hrest] at h
        injection h with h1
        obtain ⟨h2, h3⟩ := Prod.mk.injEq _ _ _ _ |>.mp h1
        obtain ⟨h4, h5⟩ := Prod.mk.injEq _ _ _ _ |>.mp h3
        obtain ⟨hpf, hdm⟩ := applyWs_dry_noPersist hdry hws
        obtain ⟨hc, hdms⟩ := ih hrest
        subst hpf
        constructor
        · rw [← h4]
          simp [hc]
        · rw [← h2]
          simp only [diskManifests, List.map_cons]
          simp only [diskManifests] at hdms
          rw [hdm, hdms]

/-- C1 (counterexample): for the explicitly included entry
`next:canary` (`--also :canary`) with candidates `2.3.0` (locator 40)
and `2.1.0` (locator 41), all candidates survive the filter, yet the
selector pins `2.1.0` — not the highest-version survivor `2.3.0` —
because the explicit-include comparator constantly returns `-1` and the
candidate array ends up reversed. -/
theorem c1_counterexample :
    (processDependency c1cfg c1proj (idxOf c1proj) 4 c1dep "w").action = .ok (.plan c1p41) ∧
    lookup (idxOf c1proj) 4 = some [40, 41] ∧
    candidateList c1proj [40, 41] = .ok [some c1p40, some c1p41] ∧
    c1p40 ∈ keptCandidates true c1dep.range [some c1p40, some c1p41] ∧
    vGt (vOf c1p40) (vOf c1p41) = true := by
  refine ⟨by decide, by decide, by decide, ?_, by decide⟩
  decide

/-- C1 (amended): for an entry that is *not* explicitly included and
whose identity has two or more resolved candidates, the selector keeps
only the candidates whose version satisfies the declared range, sorts
them descending by version, and the chosen pin target is a survivor of
maximal version.  (When the entry is explicitly included all candidates
are kept, but the inconsistent sort comparator selects the first
element of the reversed candidate order instead of the highest
version.) -/
theorem c1_amended_max_survivor
    (cfg : Config) (proj : Project) (idx : List (IdentHash × List LocatorHash))
    (identHash : IdentHash) (d : Descriptor) (cwd : String)
    (lhs : List LocatorHash) (raw : List (Option Package))
    (hwf : pkgHashWF proj = true)
    (hpin : needsPin d.range = true)
    (hexp : isDependencyExplicitlyIncluded cfg none d.name d.range = false)
    (honly : omittedByOnly cfg (pRef d.scope d.name d.range) = false)
    (hlhs : lookup idx identHash = some lhs)
    (hlen : 1 < lhs.length)
    (hraw : candidateList proj lhs = .ok raw)
    (hne : keptCandidates false d.range raw ≠ []) :
    ∃ p, chosenPinOut (processDependency cfg proj idx identHash d cwd) = some p ∧
      p ∈ keptCandidates false d.range raw ∧
      ∀ q ∈ keptCandidates false d.range raw, vGt (vOf q) (vOf p) = false := by
  have hgate : (!needsPin d.range &&
      !isDependencyExplicitlyIncluded cfg none d.name d.range) = false := by
    rw [hpin]
    rfl
  cases hsort : sortDescByVersion (keptCandidates false d.range raw) with
  | nil =>
    exfalso
    apply hne
    have hlen0 := length_sortDescByVersion (keptCandidates false d.range raw)
    rw [hsort] at hlen0
    exact List.length_eq_zero.mp hlen0.symm
  | cons c0 t =>
    have hc0kept : c0 ∈ keptCandidates false d.range raw := by
      apply mem_sortDescByVersion.mp
      rw [hsort]
      exact List.mem_cons_self c0 t
    have hc0raw : some c0 ∈ raw := (keptCandidates_mem.mp hc0kept).1
    have hlookc0 := candidateList_self hwf hraw c0 hc0raw
    refine ⟨c0, ?_, hc0kept, sortDesc_head_max hsort⟩
    rw [processDependency_eq_pickAndWarn hgate honly hlhs hlen hraw, hexp]
    have hsort2 : candidateSort false (keptCandidates false d.range raw) = c0 :: t := by
      rw [candidateSort_false]
      exact hsort
    rw [pickAndWarn_eq hsort2 hlookc0, chosenPinOut]
    exact chosenPin_finishAction d.range c0

/-- C1 (witness): the amended theorem applied to the `lib:^2.0.0`
scenario with candidates `2.3.0` and `2.1.0`. -/
theorem c1_amended_max_survivor_witness :
    ∃ p, chosenPinOut (processDependency cfgNone c3proj (idxOf c3proj) 1 c3dep "wsA") = some p ∧
      p ∈ keptCandidates false c3dep.range [some c3p10, some c3p11] ∧
      ∀ q ∈ keptCandidates false c3dep.range [some c3p10, some c3p11],
        vGt (vOf q) (vOf p) = false :=
  c1_amended_max_survivor cfgNone c3proj (idxOf c3proj) 1 c3dep "wsA" [10, 11]
    [some c3p10, some c3p11] (by decide) (by decide) (by decide) (by decide)
    (by decide) (by decide) (by decide) (by decide)

/-- C2: a dependency entry whose logical identity has no resolved
candidate makes the run report the `Missing locator` warning — and then
crash: `pinTo` is left `undefined` and line 496 dereferences it, so the
thrown `TypeError` aborts the entire run instead of skipping the entry.
The workspace also contains a second, pinnable entry that is never
planned because the run aborts. -/
theorem c2_missing_locator_aborts :
    processDependency cfgNone c2proj (idxOf c2proj) 9 c2ghost "w2" =
      { warnings := [.missingLocator "ghost:^1.0.0" "w2"],
        action := .error .pinToUndefined } ∧
    lookup (idxOf c2proj) 9 = none ∧
    runPipeline cfgNone c2proj [c2ws] = .error .pinToUndefined := by
  refine ⟨?_, by decide, ?_⟩ <;> decide

/-- C3 (counterexample): in the spec's own scenario — `lib:^2.0.0` with
candidates `2.3.0` (locator 10) and `2.1.0` (locator 11), both
satisfying the range — a `Possible duplicate` warning *is* emitted even
though the two candidates have distinct versions: the code counts every
pair of non-identical locators, without requiring equal versions. -/
theorem c3_counterexample :
    (processDependency cfgNone c3proj (idxOf c3proj) 1 c3dep "wsA").warnings =
      [.possibleDuplicate "lib:^2.0.0" 2 1 "wsA"] ∧
    c3p10.version ≠ c3p11.version := by
  refine ⟨?_, by decide⟩
  decide

/-- C3 (amended): in that scenario the plan pins `lib` to `2.3.0` (the
higher version), and exactly one duplicate warning is emitted, because
duplicate warnings require only a pair of distinct locators — not equal
versions. -/
theorem c3_amended_pins_highest_and_warns :
    processDependency cfgNone c3proj (idxOf c3proj) 1 c3dep "wsA" =
      { warnings := [.possibleDuplicate "lib:^2.0.0" 2 1 "wsA"],
        action := .ok (.plan c3p10) } ∧
    c3p10.version = some ⟨2, 3, 0⟩ ∧
    c3p10.locatorHash ≠ c3p11.locatorHash := by
  refine ⟨?_, by decide, by decide⟩
  decide

/-- C5 (counterexample): with three surviving candidates sharing
version `1.0.0` under three pairwise distinct locators there are three
non-identical candidate pairs, but the run emits a single aggregated
duplicate warning (carrying the pair count), not one warning per
non-identical pair. -/
theorem c5_counterexample :
    processDependency cfgNone c5proj (idxOf c5proj) 2 c5dep "w" =
      { warnings := [.possibleDuplicate "dup:^1.0.0" 3 3 "w"],
        action := .ok (.plan c5p21) } ∧
    countDupes (candidateSort false
      (keptCandidates false c5dep.range [some c5p21, some c5p22, some c5p23])) = 3 ∧
    (processDependency cfgNone c5proj (idxOf c5proj) 2 c5dep "w").warnings.length ≠ 3 := by
  refine ⟨?_, by decide, ?_⟩ <;> decide

/-- C5 (amended): when two or more surviving candidates of a
non-explicitly-included entry form at least one non-identical pair,
selection still succeeds — the pin target is a survivor of maximal
version — and exactly one duplicate warning is emitted, reporting the
number of non-identical pairs. -/
theorem c5_amended_single_dup_warning
    (cfg : Config) (proj : Project) (idx : List (IdentHash × List LocatorHash))
    (identHash : IdentHash) (d : Descriptor) (cwd : String)
    (lhs : List LocatorHash) (raw : List (Option Package))
    (hwf : pkgHashWF proj = true)
    (hpin : needsPin d.range = true)
    (hexp : isDependencyExplicitlyIncluded cfg none d.name d.range = false)
    (honly : omittedByOnly cfg (pRef d.scope d.name d.range) = false)
    (hlhs : lookup idx identHash = some lhs)
    (hlen : 1 < lhs.length)
    (hraw : candidateList proj lhs = .ok raw)
    (hlen2 : 1 < (keptCandidates false d.range raw).length)
    (hdup : 0 < countDupes (sortDescByVersion (keptCandidates false d.range raw))) :
    (processDependency cfg proj idx identHash d cwd).warnings =
      [.possibleDuplicate (pRef d.scope d.name d.range)
        (keptCandidates false d.range raw).length
        (countDupes (sortDescByVersion (keptCandidates false d.range raw))) cwd] ∧
    ∃ p, chosenPinOut (processDependency cfg proj idx identHash d cwd) = some p ∧
      p ∈ keptCandidates false d.range raw ∧
      ∀ q ∈ keptCandidates false d.range raw, vGt (vOf q) (vOf p) = false := by
  have hgate : (!needsPin d.range &&
      !isDependencyExplicitlyIncluded cfg none d.name d.range) = false := by
    rw [hpin]
    rfl
  cases hsort : sortDescByVersion (keptCandidates false d.range raw) with
  | nil =>
    exfalso
    have hlen0 := length_sortDescByVersion (keptCandidates false d.range raw)
    rw [hsort] at hlen0
    simp only [List.length_nil] at hlen0
    omega
  | cons c0 t =>
    have hc0kept : c0 ∈ keptCandidates false d.range raw := by
      apply mem_sortDescByVersion.mp
      rw [hsort]
      exact List.mem_cons_self c0 t
    have hc0raw : some c0 ∈ raw := (keptCandidates_mem.mp hc0kept).1
    have hlookc0 := candidateList_self hwf hraw c0 hc0raw
    have hsort2 : candidateSort false (keptCandidates false d.range raw) = c0 :: t := by
      rw [candidateSort_false]
      exact hsort
    have hlenct : 1 < (c0 :: t).length := by
      have := length_sortDescByVersion (keptCandidates false d.range raw)
      rw [hsort] at this
      omega
    rw [processDependency_eq_pickAndWarn hgate honly hlhs hlen hraw, hexp,
      pickAndWarn_eq hsort2 hlookc0]
    rw [hsort] at hdup
    constructor
    · have hlencc : (c0 :: t).length = (keptCandidates false d.range raw).length := by
        have := length_sortDescByVersion (keptCandidates false d.range raw)
        rw [hsort] at this
        exact this
      rw [if_pos hlenct, if_pos hdup, hlencc]
    · refine ⟨c0, ?_, hc0kept, sortDesc_head_max hsort⟩
      rw [chosenPinOut]
      exact chosenPin_finishAction d.range c0

/-- C5 (witness): the amended theorem applied to the three-candidate
fixture with three non-identical pairs at version `1.0.0`. -/
theorem c5_amended_single_dup_warning_witness :
    (processDependency cfgNone c5proj (idxOf c5proj) 2 c5dep "w").warnings =
      [.possibleDuplicate (pRef c5dep.scope c5dep.name c5dep.range)
        (keptCandidates false c5dep.range [some c5p21, some c5p22, some c5p23]).length
        (countDupes (sortDescByVersion
          (keptCandidates false c5dep.range [some c5p21, some c5p22, some c5p23]))) "w"] ∧
    ∃ p, chosenPinOut (processDependency cfgNone c5proj (idxOf c5proj) 2 c5dep "w") = some p ∧
      p ∈ keptCandidates false c5dep.range [some c5p21, some c5p22, some c5p23] ∧
      ∀ q ∈ keptCandidates false c5dep.range [some c5p21, some c5p22, some c5p23],
        vGt (vOf q) (vOf p) = false :=
  c5_amended_single_dup_warning cfgNone c5proj (idxOf c5proj) 2 c5dep "w" [21, 22, 23]
    [some c5p21, some c5p22, some c5p23] (by decide) (by decide) (by decide) (by decide)
    (by decide) (by decide) (by decide) (by decide) (by decide)

/-- C6 (counterexample): `needsPin` returns `true` on the exact version
`2.3.0`, although the claim requires `false` for exact versions
(`needsPin` checks only `semverUtils.validRange`, and an exact version
is a valid range). -/
theorem c6_counterexample :
    needsPin (Rng.exact ⟨2, 3, 0⟩) = true ∧
    specNeedsPin (Rng.exact ⟨2, 3, 0⟩) = false := by
  exact ⟨by decide, by decide⟩

/-- C6 (amended): `needsPin(range)` is true iff the range is valid
semver range syntax — exact versions included; tags and protocol
references excluded — and every entry for which `needsPin` is false and
which is not explicitly included is skipped with no plan entry and no
warning. -/
theorem c6_amended_needs_pin :
    (∀ r, needsPin r = validRange r) ∧
    (∀ v, needsPin (Rng.exact v) = true) ∧
    (∀ s, needsPin (Rng.tag s) = false ∧ needsPin (Rng.proto s) = false) ∧
    (∀ (cfg : Config) (proj : Project) (idx : List (IdentHash × List LocatorHash))
        (identHash : IdentHash) (d : Descriptor) (cwd : String),
      needsPin d.range = false →
      isDependencyExplicitlyIncluded cfg none d.name d.range = false →
      processDependency cfg proj idx identHash d cwd =
        { warnings := [], action := .ok .skipped }) := by
  refine ⟨?_, ?_, ?_, ?_⟩
  · intro r
    cases r <;> rfl
  · intro v
    rfl
  · intro s
    exact ⟨rfl, rfl⟩
  · intro cfg proj idx identHash d cwd hpin hexp
    exact processDependency_skip hpin hexp

/-- C6 (witness): the skip clause applied to the tag-range dependency
`@acme/lib:canary` with no matching filter. -/
theorem c6_amended_needs_pin_witness :
    processDependency c8cfg c8proj (idxOf c8proj) 3 c8dep "w" =
      { warnings := [], action := .ok .skipped } :=
  c6_amended_needs_pin.2.2.2 c8cfg c8proj (idxOf c8proj) 3 c8dep "w" (by decide) (by decide)

/-- C7: a dependency entry whose identity has exactly one resolved
candidate gets that candidate as its pin target unconditionally — no
range filter, no devirtualization, no duplicate check. -/
theorem c7_single_candidate_unconditional
    (cfg : Config) (proj : Project) (idx : List (IdentHash × List LocatorHash))
    (identHash : IdentHash) (d : Descriptor) (cwd : String)
    (lh0 : LocatorHash) (p : Package)
    (hgate : (!needsPin d.range &&
      !isDependencyExplicitlyIncluded cfg none d.name d.range) = false)
    (honly : omittedByOnly cfg (pRef d.scope d.name d.range) = false)
    (hlhs : lookup idx identHash = some [lh0])
    (hpkg : lookup proj.storedPackages lh0 = some p) :
    chosenPinOut (processDependency cfg proj idx identHash d cwd) = some p := by
  rw [processDependency_single hgate honly hlhs hpkg, chosenPinOut]
  exact chosenPin_finishAction d.range p

/-- C7 (witness): the single candidate `9.9.9` is chosen although it
does not satisfy the declared range `^1.0.0`. -/
theorem c7_single_candidate_unconditional_witness :
    satisfies ⟨9, 9, 9⟩ c7dep.range = false ∧
    chosenPinOut (processDependency cfgNone c7proj (idxOf c7proj) 6 c7dep "w") = some c7p :=
  ⟨by decide,
    c7_single_candidate_unconditional cfgNone c7proj (idxOf c7proj) 6 c7dep "w" 50 c7p
      (by decide) (by decide) (by decide) (by decide)⟩

/-- C8: the dependency `@acme/lib:canary` renders — scope included — to
exactly the configured `--also` filter, and the Descriptor Matcher
accepts that pair; but `processDependency` passes only `{ name, range }`
to `isDependencyExplicitlyIncluded` (the call the source marks
`@ts-expect-error Possible error?`), so the scope is dropped, the filter
does not match, and the entry is skipped instead of being treated as
explicitly included. -/
theorem c8_scope_dropped_not_included :
    pRef c8dep.scope c8dep.name c8dep.range = "@acme/lib:canary" ∧
    referencesPackage "@acme/lib:canary" c8dep.scope c8dep.name c8dep.range = true ∧
    specExplicitlyIncluded c8cfg c8dep.scope c8dep.name c8dep.range = true ∧
    isDependencyExplicitlyIncluded c8cfg none c8dep.name c8dep.range = false ∧
    processDependency c8cfg c8proj (idxOf c8proj) 3 c8dep "w" =
      { warnings := [], action := .ok .skipped } := by
  refine ⟨by decide, by decide, by decide, by decide, ?_⟩
  decide

/-- C9 (counterexample): the resolution index built by
`createLocatorsByIdentMap` contains the *virtual* locator 5 (whose
devirtualized locator is 6) — locators are indexed raw, not replaced by
their non-virtual counterparts during index construction. -/
theorem c9_counterexample :
    createLocatorsByIdentMap c9proj = .ok [(7, [5])] ∧
    lookup c9proj.storedPackages 5 = some c9pv ∧
    c9pv.virtualOf = some 6 := by
  refine ⟨?_, by decide, by decide⟩
  decide

/-- C9 (amended): the index stores raw (possibly virtual) locators;
devirtualization is instead applied per candidate inside the
multiple-candidates branch of the selector, so — provided one level of
devirtualization suffices for the project — every candidate produced by
the candidate mapper is non-virtual. -/
theorem c9_amended_devirtualize_at_selection
    (proj : Project) (lhs : List LocatorHash) (raw : List (Option Package))
    (hwf : oneLevelVirtualWF proj = true)
    (hraw : candidateList proj lhs = .ok raw) :
    (∀ c : Package, some c ∈ raw → c.virtualOf = none) ∧
    (∀ (expl : Bool) (range : Rng),
      ∀ q ∈ keptCandidates expl range raw, q.virtualOf = none) := by
  refine ⟨candidateList_nonvirtual hwf hraw, ?_⟩
  intro expl range q hq
  exact candidateList_nonvirtual hwf hraw q (keptCandidates_mem.mp hq).1

/-- C9 (witness): the amended theorem applied to the virtual-locator
fixture: the mapped candidate is the devirtualized, non-virtual
package. -/
theorem c9_amended_devirtualize_at_selection_witness :
    c9pr.virtualOf = none ∧ candidateList c9proj [5] = .ok [some c9pr] :=
  ⟨(c9_amended_devirtualize_at_selection c9proj [5] [some c9pr] (by decide)
      (by decide)).1 c9pr (by decide),
    by decide⟩

/-- C4 (counterexample): the pipeline is not idempotent on every project
state.  Workspace `w4` lists ident 1 (`lib:^2.0.0`) in both
`dependencies` and `devDependencies`; the first run succeeds and plans
one pin, but the applier rewrites only the regular `dependencies` entry
(the regular map wins when the ident is in both maps), so a second run
on the produced workspaces still plans one further pin. -/
theorem c4_counterexample :
    (runPipeline cfgNone c4proj [c4ws]).isOk = true ∧
    planCount (runPlans (runPipeline cfgNone c4proj [c4ws])) = 1 ∧
    planCount (runPlans (runPipeline cfgNone c4proj
      (runWorkspaces (runPipeline cfgNone c4proj [c4ws])))) = 1 := by
  refine ⟨?_, ?_, ?_⟩ <;> decide

/-- C4 (amended): the pipeline is idempotent for manifests whose
dependency maps are duplicate-free and disjoint.  With no package
filters, well-formed stored packages, distinct workspace cwds, and
separated manifests, a successful run is followed by a second run that
succeeds, plans zero entries, and leaves every workspace unchanged
(every already-pinned entry yields no plan entry). -/
theorem c4_amended_idempotent (cfg : Config) (proj : Project)
    (wss : List Workspace) (out1 : RunOut)
    (halso : cfg.alsoIncludePackages = none)
    (honly : cfg.onlyPackages = none)
    (honlyws : cfg.onlyWorkspaces = none)
    (hwf : pkgHashWF proj = true)
    (hcwd : (wss.map Workspace.cwd).Nodup)
    (hsep : ∀ ws ∈ wss, ManifestSeparated ws.manifest)
    (h1 : runPipeline cfg proj wss = .ok out1) :
    ∃ o, runPipeline cfg proj out1.workspaces = .ok o ∧
      planCount o.plans = 0 ∧ o.workspaces = out1.workspaces := by
  obtain ⟨idx, plans1, warns1, wss2, per, aw, hidx, hfp, hap, hout⟩ := runPipeline_inv h1
  rw [gather_none wss honlyws] at hfp hap
  have hown := findPinnable_lookup_own hcwd hfp
  obtain ⟨plans2, wE, hfp2, hAE2⟩ :=
    @findPinnable_after_apply cfg proj idx plans1 hwf halso honly wss wss2 per aw
      hsep hown hap [] [] (by intro q hq; cases hq)
  have hpres2 : ∀ ws ∈ wss2, (lookup plans2 ws.cwd).isSome = true :=
    findPinnable_presence hfp2
  have hap2 : applyAll cfg plans2 wss2 = .ok (wss2, [], []) := by
    apply applyAll_empty
    intro ws hws
    have hs := hpres2 ws hws
    cases hl : lookup plans2 ws.cwd with
    | none =>
      rw [hl] at hs
      cases hs
    | some pl => exact ⟨pl, rfl, hAE2 (ws.cwd, pl) (lookup_mem hl)⟩
  refine ⟨⟨wss2, plans2, wE ++ [], []⟩, ?_, ?_, ?_⟩
  · rw [hout]
    exact runPipeline_ok_shape hidx
      (by rw [gather_none _ honlyws]; exact hfp2)
      (by rw [gather_none _ honlyws]; exact hap2)
  · exact planCount_zero hAE2
  · rw [hout]

theorem c4_amended_idempotent_witness :
    ∃ o, runPipeline cfgNone c4proj c4out1.workspaces = .ok o ∧
      planCount o.plans = 0 ∧ o.workspaces = c4out1.workspaces :=
  c4_amended_idempotent cfgNone c4proj [c10ws] c4out1 rfl rfl rfl (by decide)
    (by decide) (by decide) (by decide)

/-- C10: under `--dry`, a successful run persists no workspace manifest
(the persisted-cwd list is empty and every gathered workspace's on-disk
manifest is unchanged), while the pin plan is still computed and
reported: the same run with `--dry` off succeeds with the identical
plan. -/
theorem c10_dry_run_no_persist (cfg : Config) (proj : Project)
    (wss : List Workspace) (out : RunOut)
    (hdry : cfg.dryRun = true)
    (h1 : runPipeline cfg proj wss = .ok out) :
    out.persisted = [] ∧
    diskManifests out.workspaces = diskManifests (gatherWorkspaces cfg wss) ∧
    ∃ o, runPipeline { cfg with dryRun := false } proj wss = .ok o ∧
      o.plans = out.plans := by
  obtain ⟨idx, plans, warns, wss2, per, aw, hidx, hfp, hap, hout⟩ := runPipeline_inv h1
  obtain ⟨hper, hdisk⟩ := applyAll_dry_frame hdry hap
  refine ⟨?_, ?_, ?_⟩
  · rw [hout]
    exact hper
  · rw [hout]
    exact hdisk
  · obtain ⟨wss3, per2, hap2⟩ := applyAll_dry_ok false hap
    refine ⟨⟨wss3, plans, warns ++ aw, per2⟩, ?_, ?_⟩
    · exact runPipeline_ok_shape hidx
        (by
          rw [gather_dry]
          exact (findPinnable_dry false cfg proj idx (gatherWorkspaces cfg wss)
            [] []).trans hfp)
        (by
          rw [gather_dry]
          exact hap2)
    · rw [hout]

theorem c10_dry_run_no_persist_witness :
    c10out.persisted = [] ∧
    diskManifests c10out.workspaces = diskManifests (gatherWorkspaces c10cfgDry [c10ws]) ∧
    ∃ o, runPipeline { c10cfgDry with dryRun := false } c4proj [c10ws] = .ok o ∧
      o.plans = c10out.plans :=
  c10_dry_run_no_persist c10cfgDry c4proj [c10ws] c10out rfl (by decide)


end PinDeps
